import Mathlib

/-!
Verification development for the `mine-pickaxe` network-expansion engine.

The Python sources are shallowly embedded:
* dictionaries (`dict`) become insertion-ordered association lists
  (`Dict α := List (String × α)`); `dict.update`/`d[k] = v` becomes `dinsert`,
  which overwrites an existing key in place and otherwise appends;
* `collections.Counter` becomes `Counter := List (String × Int)` with the
  Counter operations (`cincr` for `update`, `cset` for `c[k] = v`, `csub` for
  `Counter.__sub__`, which keeps only strictly positive differences);
* RDKit and the hashing helpers that live outside this repository are
  uninterpreted function parameters collected in `ChemEnv`;
* Python exceptions become `Option`: a raised exception that the caller
  catches is a `none` result.
-/

namespace MinePickaxe

/-- Insertion-ordered string-keyed dictionary (Python `dict`). -/
abbrev Dict (α : Type) := List (String × α)

/-- `collections.Counter` with string keys and integer counts. -/
abbrev Counter := List (String × Int)

/-- First-match lookup, i.e. Python `k in d` / `d[k]` on a `dict`. -/
def dlookup {α : Type} : Dict α → String → Option α
  | [], _ => none
  | (k', v) :: rest, k => if k' = k then some v else dlookup rest k

/-- Python `d[k] = v`: overwrite an existing key in place, else append. -/
def dinsert {α : Type} (d : Dict α) (k : String) (v : α) : Dict α :=
  if (dlookup d k).isSome then
    d.map (fun p => (p.1, if p.1 = k then v else p.2))
  else
    d ++ [(k, v)]

/-- `Counter` read: missing keys count as `0` (Python `c[k]`). -/
def cget (c : Counter) (k : String) : Int :=
  match dlookup c k with
  | some v => v
  | none => 0

/-- `Counter.update({k: n})`: add `n` to the count stored under `k`. -/
def cincr (c : Counter) (k : String) (n : Int) : Counter :=
  if (dlookup c k).isSome then
    c.map (fun p => (p.1, if p.1 = k then p.2 + n else p.2))
  else
    c ++ [(k, n)]

/-- Python `c[k] = v` on a `Counter`. -/
def cset (c : Counter) (k : String) (v : Int) : Counter :=
  if (dlookup c k).isSome then
    c.map (fun p => (p.1, if p.1 = k then v else p.2))
  else
    c ++ [(k, v)]

/-- `Counter.__sub__`: entries of `a` whose count exceeds the one in `b`,
followed by entries of `b` absent from `a` whose negation is positive. -/
def csub (a b : Counter) : Counter :=
  (a.filterMap fun p =>
    let d := p.2 - cget b p.1
    if 0 < d then some (p.1, d) else none) ++
  ((b.filter fun p => (dlookup a p.1).isNone).filterMap fun p =>
    if 0 < 0 - p.2 then some (p.1, 0 - p.2) else none)

/-- Total count stored under key `k` when the entry list is traversed the way
Python iterates `dict.items()` (for key-unique lists this is `cget`). -/
def entSum (l : Counter) (k : String) : Int :=
  (l.map fun p => if p.1 = k then p.2 else 0).sum

/-- Python `s.startswith("C")` for the one-character prefix used at
reactions.py 201: the first character of `s` is `C`. -/
def startsWithC (s : String) : Bool := s.data.head? = some 'C'

/-- Compound record as built in `reactions.py` (`_gen_compound`). -/
structure Cpd where
  idField : Option String   -- "ID"
  _id : String
  smiles : String
  inchiKey : String
  ctype : String            -- "Type"
  generation : Int
  atomCount : Counter
  reactantIn : List String
  productOf : List String
  expand : Bool
  formula : String
  lastTani : Int
  deriving DecidableEq

/-- The stoichiometry-weighted aggregate of the per-compound atom counts
of one half reaction, at one element. -/
def weightedAtoms (half : List (Int × Cpd)) (el : String) : Int :=
  (half.map fun q => q.1 * entSum q.2.atomCount el).sum

/-- Reaction record as built in `reactions.py` (`_run_reaction`). -/
structure RxnRec where
  _id : String
  reactants : List (Int × String)
  products : List (Int × String)
  operators : Finset String
  smilesRxn : String
  deriving DecidableEq

/-- The structure-engine data `_gen_compound` extracts from a molecule when
none of the RDKit calls raise: the canonical SMILES (already checked to be
connected), the compound hash and InChI key from `utils.get_compound_hash`,
the atom-count map and the formula. -/
structure PredCore where
  cpdId : String            -- "" models a falsy compound hash
  inchiKey : String
  smiles : String
  atomCount : Counter
  formula : String
  deriving DecidableEq

/-- The external collaborators of `_run_reaction`, uninterpreted:
RDKit (`RunReactants`, `GetFormalCharge`, sanitization) and the hashing
helpers (`utils.get_compound_hash`, `utils.get_reaction_hash`).
A raising call is a `none` result. -/
structure ChemEnv (Mol : Type) where
  runReactants : List Mol → Option (List (List Mol))
  molToPred : Mol → Option PredCore
  getFormalCharge : Mol → Int
  getReactionHash : List (Int × Cpd) → List (Int × Cpd) → String × String
  coreactantMols : String → Option String   -- rule token ↦ coreactant_mols[rule][1]
  coreactantDict : String → Option Cpd      -- compound id ↦ coreactant_dict[cpd_id]

variable {Mol : Type}

/-- `_gen_compound` (reactions.py 120-167): the RDKit part is `molToPred`;
a falsy compound hash fails; an id already present in the local compound
delta returns the cached record, otherwise a fresh `Predicted` record is
built, stamped with the current generation and flagged expandable. -/
def _gen_compound (env : ChemEnv Mol) (generation : Int) (localCpds : Dict Cpd)
    (mol : Mol) : Option Cpd :=
  match env.molToPred mol with
  | none => none
  | some core =>
    if core.cpdId ≠ "" then
      match dlookup localCpds core.cpdId with
      | some cached => some cached
      | none => some
          { idField := none
            _id := core.cpdId
            smiles := core.smiles
            inchiKey := core.inchiKey
            ctype := "Predicted"
            generation := generation
            atomCount := core.atomCount
            reactantIn := []
            productOf := []
            expand := true
            formula := core.formula
            lastTani := 0 }
    else none

/-- The accumulating loop of `_make_half_rxn` (reactions.py 94-106):
`cpds` dictionary, stoichiometric counter and formal-charge correction.
A failed `_gen_compound` or a missing coreactant (Python `KeyError`)
aborts the half reaction. -/
def halfLoop (env : ChemEnv Mol) (generation : Int) (localCpds : Dict Cpd) :
    List (Mol × String) → Dict Cpd → Counter → Int →
    Option (Dict Cpd × Counter × Int)
  | [], cpds, ctr, charge => some (cpds, ctr, charge)
  | (mol, rule) :: rest, cpds, ctr, charge =>
    match (if rule = "Any" then _gen_compound env generation localCpds mol
           else (env.coreactantMols rule).bind env.coreactantDict) with
    | none => none
    | some cpd =>
        halfLoop env generation localCpds rest
          (dinsert cpds cpd._id cpd) (cincr ctr cpd._id 1)
          (charge + env.getFormalCharge mol)

/-- The aggregate atom-count vector of `_make_half_rxn`
(reactions.py 108-114): the per-compound atom counts weighted by the
stoichiometric counter, with `atom_counts["H"] -= charge_correction`. -/
def halfAtoms (cpds : Dict Cpd) (ctr : Counter) (charge : Int) : Counter :=
  let raw := cpds.foldl
    (fun acc p => p.2.atomCount.foldl
      (fun acc2 q => cincr acc2 q.1 (q.2 * cget ctr p.1)) acc) []
  cset raw "H" (cget raw "H" - charge)

/-- The `charge_correction` a run of `_make_half_rxn` accumulates
(reactions.py 92-106): the total formal charge of the zipped molecule
list. -/
def halfCharge (env : ChemEnv Mol) (molList : List Mol)
    (rules : List String) : Int :=
  ((molList.zip rules).map fun mr => env.getFormalCharge mr.1).sum

/-- `_make_half_rxn` (reactions.py 87-118): returns the `(stoich, compound)`
list and the charge-corrected aggregate atom counter, or `none` on any
failure. -/
def _make_half_rxn (env : ChemEnv Mol) (generation : Int) (localCpds : Dict Cpd)
    (molList : List Mol) (rules : List String) :
    Option (List (Int × Cpd) × Counter) :=
  match halfLoop env generation localCpds (molList.zip rules) [] [] 0 with
  | none => none
  | some (cpds, ctr, charge) =>
      some (ctr.filterMap (fun p => (dlookup cpds p.1).map fun c => (p.2, c)),
            halfAtoms cpds ctr charge)

/-- One iteration of the candidate-product loop of `_run_reaction`
(reactions.py 183-218).  Any exception while building the product half
reaction (`none`) skips this candidate only; then come the `not products`
check, the reactant/product overlap check, the atom-balance check, and on
acceptance the insertion of `C`-prefixed product compounds and of the
reaction record (union-ing the rule name into an already-present record). -/
def processCandidate (env : ChemEnv Mol) (ruleName : String)
    (ruleProducts : List String) (generation : Int)
    (reactants : List (Int × Cpd)) (reactantSet : List String)
    (reactantAtoms : Counter) (st : Dict Cpd × Dict RxnRec)
    (productMols : List Mol) : Dict Cpd × Dict RxnRec :=
  match _make_half_rxn env generation st.1 productMols ruleProducts with
  | none => st
  | some (products, productAtoms) =>
    if products = [] then st
    else if products.any (fun p => p.2._id ∈ reactantSet) then st
    else if ¬ (csub reactantAtoms productAtoms = [] ∧
               csub productAtoms reactantAtoms = []) then st
    else
      let localCpds' := products.foldl
        (fun d p => if startsWithC p.2._id then dinsert d p.2._id p.2 else d)
        st.1
      let hash := env.getReactionHash reactants products
      let localRxns' :=
        match dlookup st.2 hash.1 with
        | none => dinsert st.2 hash.1
            { _id := hash.1
              reactants := reactants.map fun r => (r.1, r.2._id)
              products := products.map fun p => (p.1, p.2._id)
              operators := {ruleName}
              smilesRxn := hash.2 }
        | some rec => dinsert st.2 hash.1
            { rec with operators := insert ruleName rec.operators }
      (localCpds', localRxns')

/-- `_run_reaction` (reactions.py 44-220).  If `RunReactants` raises or the
reactant half reaction fails, the local dictionaries are returned unchanged
(the successful case always passes the `all(reactants)` test, since tuples
are truthy and `all [] = True`); otherwise each candidate product tuple is
processed in order. -/
def _run_reaction (env : ChemEnv Mol) (ruleName : String)
    (ruleReactants ruleProducts : List String) (reactantMols : List Mol)
    (localCpds : Dict Cpd) (localRxns : Dict RxnRec) (generation : Int) :
    Dict Cpd × Dict RxnRec :=
  match env.runReactants reactantMols,
        _make_half_rxn env generation localCpds reactantMols ruleReactants with
  | some productSets, some (reactants, reactantAtoms) =>
      productSets.foldl
        (processCandidate env ruleName ruleProducts generation reactants
          (reactants.map fun r => r.2._id) reactantAtoms)
        (localCpds, localRxns)
  | _, _ => (localCpds, localRxns)

/-! ## The master fold of `transform_all_compounds_with_full`
(reactions.py 366-399).  The per-compound transformation
`_transform_ind_compound_with_full` is dominated by RDKit and is modelled as
an uninterpreted function `f` from a SMILES string to its local delta.
Sequential branch and parallel branch run the *same* folding code
(lines 372-382 and 386-397); the parallel branch receives the per-compound
results in an arbitrary arrival order (`imap_unordered`), so both branches
are one fold applied to the result list in arrival order.  Note that on an
already-present reaction id the code evaluates
`new_rxns_master[rxn]["Operators"].union(ops_set)`: Python `set.union`
returns a fresh set and the result is discarded, so the stored record is
left unchanged. -/

/-- Fold one per-compound delta into the master dictionaries. -/
def foldDelta (master delta : Dict Cpd × Dict RxnRec) :
    Dict Cpd × Dict RxnRec :=
  (delta.1.foldl (fun m p => dinsert m p.1 p.2) master.1,
   delta.2.foldl
     (fun m p =>
       match dlookup m p.1 with
       | some _ => m      -- `.union(...)` result discarded: record unchanged
       | none => dinsert m p.1 p.2)
     master.2)

/-- `transform_all_compounds_with_full`: fold every per-compound delta into
the (initially empty) master dictionaries, in arrival order. -/
def transform_all_compounds_with_full
    (f : String → Dict Cpd × Dict RxnRec) (arrival : List String) :
    Dict Cpd × Dict RxnRec :=
  arrival.foldl (fun acc s => foldDelta acc (f s)) ([], [])

/-! ## `rxn2hash` (minedatabase/utils.py 359-412).
The inputs are the `(stoich, cpd_dict)` lists produced by `_make_half_rxn`.
The id lists are sorted, rendered by `to_str` — every element is a plain
string, so the `len(x) == 2 and not isinstance(x, str)` branch is dead and
each id is rendered as `"(1) id"` — and joined; `hashlib.sha256` is an
external deterministic function, taken as the parameter `sha`. -/

/-- Python `sorted` on a list of strings. -/
def sortStr (l : List String) : List String :=
  l.insertionSort (· ≤ ·)

/-- `to_str` applied to a list of id strings: each renders as `"(1) id"`. -/
def toStrIds (l : List String) : List String :=
  (sortStr l).map (fun x => "(1) " ++ x)

/-- The `text_ids_rxn` string that is hashed. -/
def textIdsRxn (reactants products : List (Int × Cpd)) : String :=
  String.intercalate " + " (toStrIds (sortStr (reactants.map fun r => r.2._id)))
    ++ " => "
    ++ String.intercalate " + " (toStrIds (sortStr (products.map fun p => p.2._id)))

/-- The `get_smiles` rendering of one half reaction:
`(stoich, id, smiles)` tuples sorted by id, rendered `"(stoich) smiles"`. -/
def getSmilesText (cpds : List (Int × Cpd)) : String :=
  String.intercalate " + "
    (((cpds.map fun p => (p.2._id, p.1, p.2.smiles)).insertionSort
        (fun a b => a.1 ≤ b.1)).map
      fun t => "(" ++ toString t.2.1 ++ ") " ++ t.2.2)

/-- `rxn2hash`: the identity-key `"R" + sha256(text_ids_rxn)` and the
human-readable SMILES reaction text. -/
def rxn2hash (sha : String → String)
    (reactants products : List (Int × Cpd)) : String × String :=
  ("R" ++ sha (textIdsRxn reactants products),
   getSmilesText reactants ++ " => " ++ getSmilesText products)

/-! ## `fix_rxn_pointers` (databases.py 62-86).
The reaction collection is an association list from reaction id to a record
holding the `Reactants` and `Products` entry lists (each entry a
`(stoich, compound-id)` pair).  `find_one` on a missing id returns `None`
and the subsequent subscription raises an uncaught `TypeError`, modelled as
`none`; a missing `Product_of`/`Reactant_in` key raises `KeyError`, which
*is* caught (`Option` field, `none` = key absent). -/

/-- A stored reaction record (only the fields `fix_rxn_pointers` touches). -/
structure MRxn where
  reactants : List (Int × String)
  products : List (Int × String)
  deriving DecidableEq

/-- The compound record passed to `fix_rxn_pointers`. -/
structure MComp where
  _id : String
  productOf : Option (List String)
  reactantIn : Option (List String)
  deriving DecidableEq

abbrev MStore := List (String × MRxn)

/-- `$set` of one reaction's `Products` list, rewriting entries whose
compound id equals `oldId` to `newId`. -/
def rewriteEntries (oldId newId : String) (l : List (Int × String)) :
    List (Int × String) :=
  l.map fun e => if e.2 = oldId then (e.1, newId) else e

/-- Update the record stored under `rid` (mongo `update` + `$set`). -/
def storeSet (st : MStore) (rid : String) (f : MRxn → MRxn) : MStore :=
  st.map fun p => (p.1, if p.1 = rid then f p.2 else p.2)

/-- The `Product_of` loop: rewrite the `Products` list of every listed
reaction; a missing reaction id crashes (`none`). -/
def fixProducts (oldId newId : String) :
    List String → MStore → Option MStore
  | [], st => some st
  | rid :: rest, st =>
    match dlookup st rid with
    | none => none
    | some _ => fixProducts oldId newId rest
        (storeSet st rid fun r =>
          { r with products := rewriteEntries oldId newId r.products })

/-- The `Reactant_in` loop: rewrite the `Reactants` list of every listed
reaction. -/
def fixReactants (oldId newId : String) :
    List String → MStore → Option MStore
  | [], st => some st
  | rid :: rest, st =>
    match dlookup st rid with
    | none => none
    | some _ => fixReactants oldId newId rest
        (storeSet st rid fun r =>
          { r with reactants := rewriteEntries oldId newId r.reactants })

/-- `fix_rxn_pointers`: guard on a non-empty reaction collection and a
changed id, run both rewrite loops (each skipped when its back-reference
key is missing), then stamp the new id onto the compound record. -/
def fix_rxn_pointers (st : MStore) (newId : String) (comp : MComp) :
    Option (MStore × MComp) :=
  if st.length ≠ 0 ∧ newId ≠ comp._id then
    match (match comp.productOf with
           | none => some st                 -- KeyError caught: pass
           | some l => fixProducts comp._id newId l st) with
    | none => none
    | some st1 =>
      match (match comp.reactantIn with
             | none => some st1              -- KeyError caught: pass
             | some l => fixReactants comp._id newId l st1) with
      | none => none
      | some st2 => some (st2, { comp with _id := newId })
  else some (st, { comp with _id := newId })

/-! ## `prevent_overwrite` (minedatabase/utils.py 243-267 and the identical
src/utils.py 44-59).  Paths are modelled as character lists; the set of
already-existing paths (queried through `os.path.exists`) is a finite list.
The `while` loop is given to Lean with an `erase` of the just-visited path
as termination device; behaviour is unchanged because every later iterate is
strictly longer than every already-visited path, hence never equal to an
erased one (`length_nextPath`). -/

/-- Python `write_path.split('.')`. -/
def splitDot : List Char → List (List Char)
  | [] => [[]]
  | c :: rest =>
    if c = '.' then [] :: splitDot rest
    else
      match splitDot rest with
      | [] => [[c]]
      | h :: t => (c :: h) :: t

/-- Python `'.'.join(parts)`. -/
def joinDot : List (List Char) → List Char
  | [] => []
  | [x] => x
  | x :: xs => x ++ '.' :: joinDot xs

/-- The characters of the disambiguating suffix `"_new"`. -/
def newSuffix : List Char := ['_', 'n', 'e', 'w']

/-- One loop body of `prevent_overwrite`: append `"_new"` to the
next-to-last dot-chunk when there is one, else to the whole path. -/
def nextPath (p : List Char) : List Char :=
  let sp := splitDot p
  if 1 < sp.length then
    joinDot (sp.set (sp.length - 2) (sp.getD (sp.length - 2) [] ++ newSuffix))
  else p ++ newSuffix

/-- The `while path.exists(write_path)` loop over a finite existing set. -/
def preventOverwriteGo (s : List (List Char)) (p : List Char) : List Char :=
  if h : p ∈ s then preventOverwriteGo (s.erase p) (nextPath p) else p
termination_by s.length
decreasing_by
  have h1 := List.length_erase_of_mem h
  have h2 : 0 < s.length := List.length_pos.mpr (List.ne_nil_of_mem h)
  omega

/-- `prevent_overwrite`, parameterized by the set of existing paths. -/
def prevent_overwrite (s : List (List Char)) (p : List Char) : List Char :=
  preventOverwriteGo s p

/-! ## `get_dotted_field` / `save_dotted_field`
(minedatabase/utils.py 179-217 and the identical src/utils.py 20-31).
Nested dictionary values are modelled by `JValue`; the stored payload is an
arbitrary `JValue`.  `dict.get(chunk, {})` returns the empty dictionary when
the key is missing or the current value is not addressed further. -/

/-- A nested-dictionary value: either a dictionary or an opaque payload. -/
inductive JValue where
  | dict (entries : List (String × JValue))
  | leaf (n : Nat)

/-- `current_data.get(chunk, {})` on a `JValue` known to be a dictionary;
get on the payload of a leaf never happens along a saved path, and the
loop body is only entered with a dictionary in hand, so a leaf yields the
default as the closest total model. -/
def jget (v : JValue) (k : String) : JValue :=
  match v with
  | .dict entries =>
    match dlookup entries k with
    | some w => w
    | none => .dict []
  | .leaf _ => .dict []

/-- `get_dotted_field`: walk the dictionary along the dot-separated chunks. -/
def get_dotted_field (input : JValue) (accessor : String) : JValue :=
  (accessor.splitOn ".").foldl jget input

/-- `save_dotted_field`: wrap the data in singleton dictionaries, innermost
chunk first (the `[::-1]` reversal). -/
def save_dotted_field (accessor : String) (data : JValue) : JValue :=
  (accessor.splitOn ".").reverse.foldl (fun d c => .dict [(c, d)]) data

/-- A reaction delta record discovered by rule `op1`. -/
def rxnRecA : RxnRec :=
  { _id := "R1", reactants := [(1, "Xa")], products := [(1, "Cb")],
    operators := {"op1"}, smilesRxn := "t" }

/-- The same reaction discovered by rule `op2` (from another compound's delta). -/
def rxnRecB : RxnRec := { rxnRecA with operators := {"op2"} }

/-- Per-compound transformation results: compounds `a` and `b` both discover
reaction `R1`, through different rules. -/
def deltaF : String → Dict Cpd × Dict RxnRec
  | "a" => ([], [("R1", rxnRecA)])
  | "b" => ([], [("R1", rxnRecB)])
  | _ => ([], [])

/-- A master record for reaction `R2` carrying operator set `{opA}`. -/
def rxnRecC : RxnRec :=
  { _id := "R2", reactants := [(1, "Xc")], products := [(1, "Cd")],
    operators := {"opA"}, smilesRxn := "u" }

/-- An incoming delta record for `R2` carrying operator set `{opB}`. -/
def rxnRecD : RxnRec := { rxnRecC with operators := {"opB"} }

/-- A minimal compound record used to exercise `rxn2hash`. -/
def cpdHashA : Cpd :=
  { idField := none, _id := "Ca", smiles := "O", inchiKey := "",
    ctype := "Predicted", generation := 0, atomCount := [],
    reactantIn := [], productOf := [], expand := true, formula := "",
    lastTani := 0 }

/-- A second compound record with a different id. -/
def cpdHashB : Cpd := { cpdHashA with _id := "Cb" }

/-- A concrete reaction record used by the C7 witness. -/
def mrxnW : MRxn := { reactants := [(1, "Cold")], products := [(1, "Cother")] }

/-- A concrete compound record used by the C7 witness. -/
def mcompW : MComp :=
  { _id := "Cold", productOf := some [], reactantIn := some ["R1"] }

/-- Key-uniqueness of an association list, the invariant every Python
`dict`/`Counter` enjoys. -/
def NodupKeys {α : Type} (d : Dict α) : Prop := (d.map Prod.fst).Nodup

/-- A structure-engine stub whose transform raises on every input. -/
def envFail : ChemEnv Nat :=
  { runReactants := fun _ => none
    molToPred := fun _ => none
    getFormalCharge := fun _ => 0
    getReactionHash := fun _ _ => ("", "")
    coreactantMols := fun _ => none
    coreactantDict := fun _ => none }

/-- Concrete environment over `Mol := Nat` (molecule `0` is the reactant,
molecule `1` the sole candidate product). -/
def envW : ChemEnv Nat :=
  { runReactants := fun _ => some [[1]]
    molToPred := fun m =>
      if m = 0 then some ⟨"Cr", "", "sr", [("H", 1)], "f"⟩
      else if m = 1 then some ⟨"Cp", "", "sp", [], "f"⟩
      else none
    getFormalCharge := fun m => if m = 0 then 1 else 0
    getReactionHash := fun _ _ => ("Rx", "txt")
    coreactantMols := fun _ => none
    coreactantDict := fun _ => none }

/-- The reactant compound record `envW` generates for molecule `0`. -/
def crW : Cpd :=
  { idField := none, _id := "Cr", smiles := "sr", inchiKey := "",
    ctype := "Predicted", generation := 5, atomCount := [("H", 1)],
    reactantIn := [], productOf := [], expand := true, formula := "f",
    lastTani := 0 }

/-- The product compound record `envW` generates for molecule `1`. -/
def cpW : Cpd :=
  { idField := none, _id := "Cp", smiles := "sp", inchiKey := "",
    ctype := "Predicted", generation := 5, atomCount := [],
    reactantIn := [], productOf := [], expand := true, formula := "f",
    lastTani := 0 }

/-- The reaction record `_run_reaction` emits on `envW`. -/
def recW : RxnRec :=
  { _id := "Rx", reactants := [(1, "Cr")], products := [(1, "Cp")],
    operators := {"rule1"}, smilesRxn := "txt" }

/-- The per-reaction-record property C5 maintains through the candidate
loop: a record either keeps the reactant/product lists of a record already
present before the call, or its reactant-id and product-id sets are
disjoint. -/
def DisjointInv (lr : Dict RxnRec) (st : Dict Cpd × Dict RxnRec) : Prop :=
  ∀ k r, dlookup st.2 k = some r →
    (∃ r0, dlookup lr k = some r0 ∧ r.reactants = r0.reactants ∧
      r.products = r0.products) ∨
    (∀ cid ∈ r.reactants.map Prod.snd, cid ∉ r.products.map Prod.snd)

/-- The property C9 maintains over the local compound dictionary: records
are keyed by their own `_id`, and every record at a key that was absent
from the input dictionary `lc` is a `C`-prefixed `Predicted` compound of
the current generation, flagged expandable, with empty back-reference
lists. -/
def CpdInv (g : Int) (lc : Dict Cpd) (d : Dict Cpd) : Prop :=
  (∀ k c, dlookup d k = some c → c._id = k) ∧
  (∀ k c, dlookup d k = some c → dlookup lc k = none →
    startsWithC c._id = true ∧ c.ctype = "Predicted" ∧ c.generation = g ∧
    c.expand = true ∧ c.reactantIn = [] ∧ c.productOf = [])

/-- The property C4 maintains through the candidate loop: every reaction
record at a key absent from the input dictionary carries the id lists of
the fixed reactant half `reacts` and of a product half that
`_make_half_rxn` actually built (for some candidate tuple of the
transform output, at some intermediate compound cache), and the aggregate
counters of those two halves — the quantities reactions.py 194 compares —
agree at every element. -/
def BalInv (env : ChemEnv Mol) (g : Int) (ruleProducts : List String)
    (reacts : List (Int × Cpd)) (rAtoms : Counter)
    (productSets : List (List Mol)) (lr : Dict RxnRec)
    (st : Dict Cpd × Dict RxnRec) : Prop :=
  ∀ k r, dlookup st.2 k = some r → dlookup lr k = none →
    ∃ (x : List Mol) (cache : Dict Cpd) (pds : List (Int × Cpd))
      (pAtoms : Counter),
      x ∈ productSets ∧
      _make_half_rxn env g cache x ruleProducts = some (pds, pAtoms) ∧
      r.reactants = reacts.map (fun q => (q.1, q.2._id)) ∧
      r.products = pds.map (fun q => (q.1, q.2._id)) ∧
      (∀ el, cget rAtoms el = cget pAtoms el)


/-! ## Association-list lemmas -/

theorem dlookup_append {α : Type} (d1 d2 : Dict α) (k : String) :
    dlookup (d1 ++ d2) k =
      match dlookup d1 k with
      | some v => some v
      | none => dlookup d2 k := by
  induction d1 with
  | nil => rfl
  | cons p rest ih =>
    obtain ⟨k', v⟩ := p
    by_cases h : k' = k <;> simp [dlookup, h, ih]

theorem dlookup_map_snd {α : Type} (d : Dict α) (g : String → α → α) (k : String) :
    dlookup (d.map fun p => (p.1, g p.1 p.2)) k = (dlookup d k).map (g k) := by
  induction d with
  | nil => rfl
  | cons p rest ih =>
    obtain ⟨k0, v0⟩ := p
    by_cases h : k0 = k
    · subst h
      simp [dlookup]
    · simp [dlookup, h, ih]

theorem dlookup_dinsert_self {α : Type} (d : Dict α) (k : String) (v : α) :
    dlookup (dinsert d k v) k = some v := by
  unfold dinsert
  split
  case isTrue h =>
    rw [dlookup_map_snd d (fun k1 v1 => if k1 = k then v else v1) k]
    obtain ⟨v0, hv⟩ := Option.isSome_iff_exists.mp h
    rw [hv]
    simp
  case isFalse h =>
    rw [dlookup_append]
    rw [Option.not_isSome_iff_eq_none] at h
    rw [h]
    simp [dlookup]

theorem dlookup_dinsert_ne {α : Type} (d : Dict α) (k k' : String) (v : α)
    (h : k' ≠ k) : dlookup (dinsert d k v) k' = dlookup d k' := by
  unfold dinsert
  split
  case isTrue _ =>
    rw [dlookup_map_snd d (fun k1 v1 => if k1 = k then v else v1) k']
    cases dlookup d k' with
    | none => rfl
    | some v0 => simp [h]
  case isFalse _ =>
    rw [dlookup_append]
    cases hl : dlookup d k' with
    | some v' => rfl
    | none => simp [dlookup, Ne.symm h]

theorem dlookup_cons_self {α : Type} (k : String) (v : α) (rest : Dict α) :
    dlookup ((k, v) :: rest) k = some v := by
  simp [dlookup]

theorem dlookup_cons_ne {α : Type} {k0 k : String} (v : α) (rest : Dict α)
    (h : k0 ≠ k) : dlookup ((k0, v) :: rest) k = dlookup rest k := by
  simp [dlookup, h]

theorem dlookup_mem {α : Type} {d : Dict α} {k : String} {v : α}
    (h : dlookup d k = some v) : (k, v) ∈ d := by
  induction d with
  | nil => simp [dlookup] at h
  | cons p rest ih =>
    obtain ⟨k', v'⟩ := p
    by_cases hk : k' = k
    · subst hk
      have hv : v' = v := by simpa [dlookup] using h
      exact hv ▸ List.mem_cons_self _ _
    · have hr : dlookup rest k = some v := by simpa [dlookup, hk] using h
      exact List.mem_cons_of_mem _ (ih hr)

theorem mem_dinsert {α : Type} {d : Dict α} {k k' : String} {v v' : α}
    (h : (k', v') ∈ dinsert d k v) : (k', v') ∈ d ∨ (k' = k ∧ v' = v) := by
  unfold dinsert at h
  split at h
  case isTrue _ =>
    obtain ⟨p, hp, he⟩ := List.mem_map.mp h
    obtain ⟨he1, he2⟩ := Prod.mk.injEq .. ▸ he
    by_cases hk : p.1 = k
    · right
      rw [if_pos hk] at he2
      exact ⟨he1 ▸ hk, he2.symm⟩
    · left
      rw [if_neg hk] at he2
      have : p = (k', v') := by
        cases p
        simp only at he1 he2
        rw [he1, he2]
      exact this ▸ hp
  case isFalse _ =>
    rcases List.mem_append.mp h with h1 | h2
    · exact Or.inl h1
    · right
      simp only [List.mem_singleton, Prod.mk.injEq] at h2
      exact h2

/-! ## C10: dotted-field round trip -/

theorem dotted_roundtrip_aux : ∀ (cs : List String) (d : JValue),
    cs.foldl jget (cs.reverse.foldl (fun d c => JValue.dict [(c, d)]) d) = d
  | [], _ => rfl
  | c :: cs, d => by
    have h : (c :: cs).reverse.foldl (fun d c => JValue.dict [(c, d)]) d
        = JValue.dict [(c, cs.reverse.foldl (fun d c => JValue.dict [(c, d)]) d)] := by
      rw [List.reverse_cons, List.foldl_append]
      rfl
    rw [h]
    show cs.foldl jget
      (jget (JValue.dict [(c, cs.reverse.foldl (fun d c => JValue.dict [(c, d)]) d)]) c) = d
    simp only [jget, dlookup, if_pos rfl]
    exact dotted_roundtrip_aux cs d

/-- C10: for every dot-separated accessor string `s` and every value `d`,
`get_dotted_field (save_dotted_field s d) s = d`: saving a value under a
dotted path and reading it back through the same path is the identity. -/
theorem get_save_dotted_field_roundtrip (s : String) (d : JValue) :
    get_dotted_field (save_dotted_field s d) s = d :=
  dotted_roundtrip_aux (s.splitOn ".") d

/-! ## C1 and C2: the operator-set merge of
`transform_all_compounds_with_full` drops the incoming operators.
`new_rxns_master[rxn]["Operators"].union(ops_set)` builds a fresh set and
throws it away, so the master record keeps only the operators of the first
delta folded for that reaction id. -/




/-- C1: `transform_all_compounds_with_full` is NOT order-independent: with
per-compound deltas that discover the same reaction id through different
rules, the arrival order `[a, b]` (sequential order) stores Operators
`{op1}` while the arrival order `[b, a]` (a possible `imap_unordered`
order of the parallel branch) stores `{op2}` — the final Operators set
depends on the fold order, contradicting the claimed determinism. -/
theorem transform_all_order_dependent :
    (dlookup (transform_all_compounds_with_full deltaF ["a", "b"]).2 "R1").map
        RxnRec.operators = some {"op1"} ∧
    (dlookup (transform_all_compounds_with_full deltaF ["b", "a"]).2 "R1").map
        RxnRec.operators = some {"op2"} ∧
    ({"op1"} : Finset String) ≠ {"op2"} := by
  refine ⟨rfl, rfl, ?_⟩
  decide



/-- C2: folding a delta whose reaction id is already present does NOT union
the Operators sets: the stored set stays `{opA}`, missing the rule name
`opB` that the incoming delta contained (`set.union` result discarded). -/
theorem foldDelta_drops_incoming_operators :
    (dlookup (foldDelta ([], [("R2", rxnRecC)]) ([], [("R2", rxnRecD)])).2 "R2").map
        RxnRec.operators = some {"opA"} ∧
    "opB" ∈ rxnRecD.operators ∧
    "opB" ∉ ({"opA"} : Finset String) ∧
    ({"opA"} : Finset String) ≠ {"opA"} ∪ {"opB"} := by
  refine ⟨rfl, ?_, ?_, ?_⟩ <;> decide

/-! ## C3: `rxn2hash` ignores stoichiometric coefficients -/

theorem sortStr_eq_of_perm {l1 l2 : List String} (h : l1.Perm l2) :
    sortStr l1 = sortStr l2 :=
  List.eq_of_perm_of_sorted
    ((List.perm_insertionSort _ l1).trans (h.trans (List.perm_insertionSort _ l2).symm))
    (List.sorted_insertionSort _ l1) (List.sorted_insertionSort _ l2)

/-- C3 (amended): the identity-key returned by `rxn2hash` is a content hash
of the sorted reactant-id list and sorted product-id list only — every
entry is rendered with coefficient `(1)` — so any two inputs with the same
reactant-id multiset and the same product-id multiset receive the same
hash, regardless of their stoichiometric coefficients. -/
theorem rxn2hash_eq_of_id_perm (sha : String → String)
    (r1 p1 r2 p2 : List (Int × Cpd))
    (hr : (r1.map fun x => x.2._id).Perm (r2.map fun x => x.2._id))
    (hp : (p1.map fun x => x.2._id).Perm (p2.map fun x => x.2._id)) :
    (rxn2hash sha r1 p1).1 = (rxn2hash sha r2 p2).1 := by
  unfold rxn2hash textIdsRxn toStrIds
  rw [sortStr_eq_of_perm hr, sortStr_eq_of_perm hp]



/-- C3 counterexample: two reactions with the same compound ids but
different stoichiometric coefficients — `1 Ca` versus `2 Ca` — produce the
same hashed text, hence the same identity-key (for the deterministic hash
function this is independent of which hash is plugged in; it is shown here
for the identity instance), although their (coefficient, id) multisets
differ.  This refutes the claim that such reactions receive different
identity-keys. -/
theorem rxn2hash_stoich_collision :
    textIdsRxn [(1, cpdHashA)] [(1, cpdHashB)]
      = textIdsRxn [(2, cpdHashA)] [(1, cpdHashB)] ∧
    (rxn2hash (fun s => s) [(1, cpdHashA)] [(1, cpdHashB)]).1
      = (rxn2hash (fun s => s) [(2, cpdHashA)] [(1, cpdHashB)]).1 ∧
    ¬ ([((1 : Int), cpdHashA)].map fun x => (x.1, x.2._id)).Perm
        ([((2 : Int), cpdHashA)].map fun x => (x.1, x.2._id)) := by
  refine ⟨rfl, rfl, ?_⟩
  decide

/-- C3 witness for the amended theorem at a concrete input: permuted
reactant lists with different coefficients hash identically. -/
theorem rxn2hash_eq_of_id_perm_witness :
    (rxn2hash (fun s => s) [(1, cpdHashA), (1, cpdHashB)] []).1
      = (rxn2hash (fun s => s) [(3, cpdHashB), (2, cpdHashA)] []).1 :=
  rxn2hash_eq_of_id_perm (fun s => s) _ _ _ _ (by decide) (by decide)

/-! ## C8: `prevent_overwrite` -/

theorem splitDot_ne_nil (p : List Char) : splitDot p ≠ [] := by
  cases p with
  | nil => simp [splitDot]
  | cons c rest =>
    unfold splitDot
    split
    · simp
    · cases splitDot rest <;> simp

theorem joinDot_cons (x : List Char) (l : List (List Char)) (h : l ≠ []) :
    joinDot (x :: l) = x ++ '.' :: joinDot l := by
  cases l with
  | nil => exact absurd rfl h
  | cons y ys => rfl

theorem joinDot_splitDot (p : List Char) : joinDot (splitDot p) = p := by
  induction p with
  | nil => rfl
  | cons c rest ih =>
    unfold splitDot
    split
    case isTrue hc =>
      rw [joinDot_cons _ _ (splitDot_ne_nil rest), ih, hc]
      rfl
    case isFalse hc =>
      cases hs : splitDot rest with
      | nil => exact absurd hs (splitDot_ne_nil rest)
      | cons h0 t0 =>
        cases t0 with
        | nil =>
          show joinDot [c :: h0] = c :: rest
          have : joinDot [h0] = rest := by rw [← hs, ih]
          simpa [joinDot] using this
        | cons h1 t1 =>
          rw [joinDot_cons (c :: h0) (h1 :: t1) (by simp)]
          have hrest : joinDot (h0 :: h1 :: t1) = rest := by rw [← hs, ih]
          rw [joinDot_cons h0 (h1 :: t1) (by simp)] at hrest
          rw [List.cons_append, hrest]

theorem joinDot_set_length :
    ∀ (l : List (List Char)) (i : Nat) (s : List Char), i < l.length →
    (joinDot (l.set i (l.getD i [] ++ s))).length = (joinDot l).length + s.length := by
  intro l
  induction l with
  | nil => intro i s h; simp at h
  | cons x xs ih =>
    intro i s h
    cases i with
    | zero =>
      cases xs with
      | nil => simp [joinDot]
      | cons y ys =>
        rw [List.set_cons_zero, List.getD_cons_zero,
          joinDot_cons (x ++ s) (y :: ys) (by simp),
          joinDot_cons x (y :: ys) (by simp)]
        simp only [List.length_append, List.length_cons]
        omega
    | succ j =>
      cases xs with
      | nil => simp at h
      | cons y ys =>
        have hj : j < (y :: ys).length := by simpa using h
        rw [List.set_cons_succ, List.getD_cons_succ,
          joinDot_cons x ((y :: ys).set j ((y :: ys).getD j [] ++ s))
            (by intro hnil; simpa using congrArg List.length hnil),
          joinDot_cons x (y :: ys) (by simp)]
        simp only [List.length_append, List.length_cons]
        rw [ih j s hj]
        omega

theorem length_nextPath (p : List Char) : (nextPath p).length = p.length + 4 := by
  simp only [nextPath]
  split
  case isTrue h =>
    have hi : (splitDot p).length - 2 < (splitDot p).length := by omega
    rw [joinDot_set_length _ _ _ hi, joinDot_splitDot]
    rfl
  case isFalse h =>
    simp [newSuffix]

theorem preventOverwriteGo_spec (s : List (List Char)) (p : List Char) :
    p.length ≤ (preventOverwriteGo s p).length ∧
    preventOverwriteGo s p ∉ s ∧
    ∃ k, preventOverwriteGo s p = nextPath^[k] p := by
  induction s, p using preventOverwriteGo.induct with
  | case1 s p h ih =>
    rw [preventOverwriteGo, dif_pos h]
    obtain ⟨ihlen, ihmem, k, ihit⟩ := ih
    have hlen := length_nextPath p
    refine ⟨by omega, ?_, k + 1, ?_⟩
    · intro hmem
      have hne : preventOverwriteGo (s.erase p) (nextPath p) ≠ p := by
        intro he
        rw [he] at ihlen
        omega
      exact ihmem ((List.mem_erase_of_ne hne).mpr hmem)
    · rw [ihit, Function.iterate_succ_apply]
  | case2 s p h =>
    rw [preventOverwriteGo, dif_neg h]
    exact ⟨le_rfl, h, 0, rfl⟩

/-- C8: for every write path `p` and finite set `s` of already-existing
paths, `prevent_overwrite` returns a path outside `s` (so nothing is
overwritten), returns `p` unchanged when `p` does not already exist, and
derives the result by iterating the step that appends `"_new"` (before the
final extension when the name contains a `'.'`, since that step edits the
next-to-last chunk of the dot-split). -/
theorem prevent_overwrite_spec (s : List (List Char)) (p : List Char) :
    prevent_overwrite s p ∉ s ∧
    (p ∉ s → prevent_overwrite s p = p) ∧
    ∃ k, prevent_overwrite s p = nextPath^[k] p := by
  obtain ⟨_, hmem, hk⟩ := preventOverwriteGo_spec s p
  refine ⟨hmem, ?_, hk⟩
  intro hp
  rw [prevent_overwrite, preventOverwriteGo, dif_neg hp]

/-- C8 witness: concrete existing set `{"a", "a_new"}` and path `"a"`:
the result avoids the set; and a fresh path is returned unchanged. -/
theorem prevent_overwrite_spec_witness :
    prevent_overwrite [['a'], ['a', '_', 'n', 'e', 'w']] ['a']
        ∉ [['a'], ['a', '_', 'n', 'e', 'w']] ∧
    prevent_overwrite [['b']] ['a'] = ['a'] :=
  ⟨(prevent_overwrite_spec [['a'], ['a', '_', 'n', 'e', 'w']] ['a']).1,
   (prevent_overwrite_spec [['b']] ['a']).2.1 (by decide)⟩

/-! ## C7: `fix_rxn_pointers` -/

theorem dlookup_storeSet (st : MStore) (rid k : String) (f : MRxn → MRxn) :
    dlookup (storeSet st rid f) k =
      if rid = k then (dlookup st k).map f else dlookup st k := by
  unfold storeSet
  rw [dlookup_map_snd st (fun k1 r => if k1 = rid then f r else r) k]
  by_cases h : rid = k
  · subst h
    cases dlookup st rid <;> simp
  · have h2 : ¬ k = rid := fun hh => h hh.symm
    cases dlookup st k with
    | none => simp [h]
    | some v =>
      rw [Option.map_some', if_neg h2, if_neg h]

theorem rewriteEntries_no_old {oldId newId : String} (hne : newId ≠ oldId)
    (l : List (Int × String)) :
    ∀ e ∈ rewriteEntries oldId newId l, e.2 ≠ oldId := by
  intro e he
  rcases List.mem_map.mp he with ⟨e0, _, rfl⟩
  by_cases h : e0.2 = oldId <;> simp [h, hne]

theorem rewriteEntries_idem (oldId newId : String) (l : List (Int × String)) :
    rewriteEntries oldId newId (rewriteEntries oldId newId l)
      = rewriteEntries oldId newId l := by
  unfold rewriteEntries
  rw [List.map_map]
  apply List.map_congr_left
  intro e _
  by_cases h : e.2 = oldId
  · simp only [Function.comp_apply, if_pos h]
    by_cases h2 : newId = oldId <;> simp [h2]
  · simp only [Function.comp_apply, if_neg h, if_neg h]

theorem fixProducts_pointwise {oldId newId : String} :
    ∀ (l : List String) (st st' : MStore),
    fixProducts oldId newId l st = some st' →
    ∀ rid r', dlookup st' rid = some r' →
      ∃ r, dlookup st rid = some r ∧ r'.reactants = r.reactants ∧
        (r'.products = r.products ∨
         r'.products = rewriteEntries oldId newId r.products)
  | [], st, st', h => by
    cases h
    exact fun rid r' hr => ⟨r', hr, rfl, Or.inl rfl⟩
  | rid0 :: rest, st, st', h => by
    intro rid r' hr
    simp only [fixProducts] at h
    cases hl : dlookup st rid0 with
    | none => rw [hl] at h; cases h
    | some r0 =>
      rw [hl] at h
      obtain ⟨r1, h1, hreact, hprod⟩ :=
        fixProducts_pointwise rest _ st' h rid r' hr
      rw [dlookup_storeSet] at h1
      by_cases he : rid0 = rid
      · rw [if_pos he] at h1
        cases hl2 : dlookup st rid with
        | none => rw [hl2] at h1; cases h1
        | some r2 =>
          rw [hl2] at h1
          simp only [Option.map_some', Option.some.injEq] at h1
          refine ⟨r2, rfl, ?_, ?_⟩
          · rw [hreact, ← h1]
          · rcases hprod with hp | hp
            · right; rw [hp, ← h1]
            · right; rw [hp, ← h1]
              exact rewriteEntries_idem oldId newId r2.products
      · rw [if_neg he] at h1
        exact ⟨r1, h1, hreact, hprod⟩

theorem fixProducts_no_old {oldId newId : String} (hne : newId ≠ oldId) :
    ∀ (l : List String) (st st' : MStore),
    fixProducts oldId newId l st = some st' →
    ∀ rid, rid ∈ l → ∀ r', dlookup st' rid = some r' →
      ∀ e ∈ r'.products, e.2 ≠ oldId
  | [], _, _, _ => by intro rid hrid; simp at hrid
  | rid0 :: rest, st, st', h => by
    intro rid hrid r' hr
    simp only [fixProducts] at h
    cases hl : dlookup st rid0 with
    | none => rw [hl] at h; cases h
    | some r0 =>
      rw [hl] at h
      rcases List.mem_cons.mp hrid with he | hm
      · subst he
        obtain ⟨r1, h1, _, hprod⟩ := fixProducts_pointwise rest _ st' h rid r' hr
        rw [dlookup_storeSet, if_pos rfl, hl] at h1
        simp only [Option.map_some', Option.some.injEq] at h1
        have hr1 : ∀ e ∈ r1.products, e.2 ≠ oldId := by
          rw [← h1]
          exact rewriteEntries_no_old hne r0.products
        rcases hprod with hp | hp
        · rw [hp]; exact hr1
        · rw [hp]; exact rewriteEntries_no_old hne r1.products
      · exact fixProducts_no_old hne rest _ st' h rid hm r' hr

theorem fixProducts_isSome {oldId newId : String} :
    ∀ (l : List String) (st st' : MStore),
    fixProducts oldId newId l st = some st' →
    ∀ k, (dlookup st' k).isSome = (dlookup st k).isSome
  | [], _, _, h => by cases h; exact fun _ => rfl
  | rid0 :: rest, st, st', h => by
    intro k
    simp only [fixProducts] at h
    cases hl : dlookup st rid0 with
    | none => rw [hl] at h; cases h
    | some r0 =>
      rw [hl] at h
      rw [fixProducts_isSome rest _ st' h k, dlookup_storeSet]
      by_cases he : rid0 = k
      · subst he
        rw [if_pos rfl]
        cases dlookup st rid0 <;> rfl
      · rw [if_neg he]

theorem fixProducts_total {oldId newId : String} :
    ∀ (l : List String) (st : MStore),
    (∀ rid ∈ l, (dlookup st rid).isSome) →
    ∃ st', fixProducts oldId newId l st = some st'
  | [], st, _ => ⟨st, rfl⟩
  | rid0 :: rest, st, h => by
    cases hl : dlookup st rid0 with
    | none =>
      have := h rid0 (List.mem_cons_self _ _)
      rw [hl] at this
      cases this
    | some r0 =>
      have hrest : ∀ rid ∈ rest,
          (dlookup (storeSet st rid0 fun r =>
            { r with products := rewriteEntries oldId newId r.products }) rid).isSome := by
        intro rid hrid
        rw [dlookup_storeSet]
        by_cases he : rid0 = rid
        · subst he
          rw [if_pos rfl, hl]
          rfl
        · rw [if_neg he]
          exact h rid (List.mem_cons_of_mem _ hrid)
      obtain ⟨st', hst'⟩ := fixProducts_total rest _ hrest
      refine ⟨st', ?_⟩
      simp only [fixProducts, hl]
      exact hst'

theorem fixReactants_pointwise {oldId newId : String} :
    ∀ (l : List String) (st st' : MStore),
    fixReactants oldId newId l st = some st' →
    ∀ rid r', dlookup st' rid = some r' →
      ∃ r, dlookup st rid = some r ∧ r'.products = r.products ∧
        (r'.reactants = r.reactants ∨
         r'.reactants = rewriteEntries oldId newId r.reactants)
  | [], st, st', h => by
    cases h
    exact fun rid r' hr => ⟨r', hr, rfl, Or.inl rfl⟩
  | rid0 :: rest, st, st', h => by
    intro rid r' hr
    simp only [fixReactants] at h
    cases hl : dlookup st rid0 with
    | none => rw [hl] at h; cases h
    | some r0 =>
      rw [hl] at h
      obtain ⟨r1, h1, hprod, hreact⟩ :=
        fixReactants_pointwise rest _ st' h rid r' hr
      rw [dlookup_storeSet] at h1
      by_cases he : rid0 = rid
      · rw [if_pos he] at h1
        cases hl2 : dlookup st rid with
        | none => rw [hl2] at h1; cases h1
        | some r2 =>
          rw [hl2] at h1
          simp only [Option.map_some', Option.some.injEq] at h1
          refine ⟨r2, rfl, ?_, ?_⟩
          · rw [hprod, ← h1]
          · rcases hreact with hp | hp
            · right; rw [hp, ← h1]
            · right; rw [hp, ← h1]
              exact rewriteEntries_idem oldId newId r2.reactants
      · rw [if_neg he] at h1
        exact ⟨r1, h1, hprod, hreact⟩

theorem fixReactants_no_old {oldId newId : String} (hne : newId ≠ oldId) :
    ∀ (l : List String) (st st' : MStore),
    fixReactants oldId newId l st = some st' →
    ∀ rid, rid ∈ l → ∀ r', dlookup st' rid = some r' →
      ∀ e ∈ r'.reactants, e.2 ≠ oldId
  | [], _, _, _ => by intro rid hrid; simp at hrid
  | rid0 :: rest, st, st', h => by
    intro rid hrid r' hr
    simp only [fixReactants] at h
    cases hl : dlookup st rid0 with
    | none => rw [hl] at h; cases h
    | some r0 =>
      rw [hl] at h
      rcases List.mem_cons.mp hrid with he | hm
      · subst he
        obtain ⟨r1, h1, _, hreact⟩ := fixReactants_pointwise rest _ st' h rid r' hr
        rw [dlookup_storeSet, if_pos rfl, hl] at h1
        simp only [Option.map_some', Option.some.injEq] at h1
        have hr1 : ∀ e ∈ r1.reactants, e.2 ≠ oldId := by
          rw [← h1]
          exact rewriteEntries_no_old hne r0.reactants
        rcases hreact with hp | hp
        · rw [hp]; exact hr1
        · rw [hp]; exact rewriteEntries_no_old hne r1.reactants
      · exact fixReactants_no_old hne rest _ st' h rid hm r' hr

theorem fixReactants_total {oldId newId : String} :
    ∀ (l : List String) (st : MStore),
    (∀ rid ∈ l, (dlookup st rid).isSome) →
    ∃ st', fixReactants oldId newId l st = some st'
  | [], st, _ => ⟨st, rfl⟩
  | rid0 :: rest, st, h => by
    cases hl : dlookup st rid0 with
    | none =>
      have := h rid0 (List.mem_cons_self _ _)
      rw [hl] at this
      cases this
    | some r0 =>
      have hrest : ∀ rid ∈ rest,
          (dlookup (storeSet st rid0 fun r =>
            { r with reactants := rewriteEntries oldId newId r.reactants }) rid).isSome := by
        intro rid hrid
        rw [dlookup_storeSet]
        by_cases he : rid0 = rid
        · subst he
          rw [if_pos rfl, hl]
          rfl
        · rw [if_neg he]
          exact h rid (List.mem_cons_of_mem _ hrid)
      obtain ⟨st', hst'⟩ := fixReactants_total rest _ hrest
      refine ⟨st', ?_⟩
      simp only [fixReactants, hl]
      exact hst'

theorem matchOpt_fixProducts (oldId newId : String) (o : Option (List String))
    (st : MStore) :
    (match o with
     | none => some st
     | some l => fixProducts oldId newId l st)
      = fixProducts oldId newId (o.getD []) st := by
  cases o <;> rfl

theorem matchOpt_fixReactants (oldId newId : String) (o : Option (List String))
    (st : MStore) :
    (match o with
     | none => some st
     | some l => fixReactants oldId newId l st)
      = fixReactants oldId newId (o.getD []) st := by
  cases o <;> rfl

/-- C7: on a store whose reaction collection is non-empty, with every
back-referenced reaction id present in the store and with back-references
complete for those reactions (a listed reaction mentioning the old id among
its products is listed in `Product_of`, among its reactants in
`Reactant_in`), `fix_rxn_pointers` rewrites every old-id entry of the
`Products` lists of the `Product_of` reactions and of the `Reactants` lists
of the `Reactant_in` reactions, so no reaction reachable through those
back-references still references the old id, and the returned compound
carries `_id = new_id`; when `new_id` equals the old id no reaction record
is modified, and a compound missing the `Product_of` or `Reactant_in` key
is handled without error as having no reactions to fix. -/
theorem fix_rxn_pointers_spec (st : MStore) (newId : String) (comp : MComp) :
    (newId = comp._id →
      fix_rxn_pointers st newId comp = some (st, { comp with _id := newId })) ∧
    (comp.productOf = none → comp.reactantIn = none →
      fix_rxn_pointers st newId comp = some (st, { comp with _id := newId })) ∧
    (st.length ≠ 0 → newId ≠ comp._id →
      (∀ rid ∈ comp.productOf.getD [] ++ comp.reactantIn.getD [],
        (dlookup st rid).isSome) →
      (∀ rid ∈ comp.productOf.getD [] ++ comp.reactantIn.getD [],
        ∀ r, dlookup st rid = some r →
          (comp._id ∈ r.products.map Prod.snd → rid ∈ comp.productOf.getD []) ∧
          (comp._id ∈ r.reactants.map Prod.snd → rid ∈ comp.reactantIn.getD [])) →
      ∃ st',
        fix_rxn_pointers st newId comp = some (st', { comp with _id := newId }) ∧
        ∀ rid ∈ comp.productOf.getD [] ++ comp.reactantIn.getD [],
          ∀ r', dlookup st' rid = some r' →
            (∀ e ∈ r'.products, e.2 ≠ comp._id) ∧
            (∀ e ∈ r'.reactants, e.2 ≠ comp._id)) := by
  refine ⟨?_, ?_, ?_⟩
  · intro h
    unfold fix_rxn_pointers
    rw [if_neg]
    intro hg
    exact hg.2 h
  · intro hpo hri
    unfold fix_rxn_pointers
    split
    · rw [hpo, hri]
    · rfl
  · intro hlen hne hmem hcompl
    have hmemPo : ∀ rid ∈ comp.productOf.getD [], (dlookup st rid).isSome :=
      fun rid hr => hmem rid (List.mem_append_left _ hr)
    obtain ⟨st1, hst1⟩ :=
      @fixProducts_total comp._id newId (comp.productOf.getD []) st hmemPo
    have hmemRi : ∀ rid ∈ comp.reactantIn.getD [], (dlookup st1 rid).isSome := by
      intro rid hr
      rw [fixProducts_isSome _ _ _ hst1 rid]
      exact hmem rid (List.mem_append_right _ hr)
    obtain ⟨st2, hst2⟩ :=
      @fixReactants_total comp._id newId (comp.reactantIn.getD []) st1 hmemRi
    refine ⟨st2, ?_, ?_⟩
    · unfold fix_rxn_pointers
      rw [if_pos ⟨hlen, hne⟩, matchOpt_fixProducts, hst1]
      simp only []
      rw [matchOpt_fixReactants, hst2]
    · intro rid hrid r' hr'
      obtain ⟨r1, h1, hprodEq, hreactAlt⟩ :=
        fixReactants_pointwise _ _ _ hst2 rid r' hr'
      obtain ⟨r0, h0, hreactEq, hprodAlt⟩ :=
        fixProducts_pointwise _ _ _ hst1 rid r1 h1
      have hnoOldProducts : ∀ e ∈ r'.products, e.2 ≠ comp._id := by
        by_cases hpo : rid ∈ comp.productOf.getD []
        · rw [hprodEq]
          exact fixProducts_no_old hne _ _ _ hst1 rid hpo r1 h1
        · have hnot : comp._id ∉ r0.products.map Prod.snd := by
            intro hin
            exact hpo ((hcompl rid hrid r0 h0).1 hin)
          rw [hprodEq]
          rcases hprodAlt with hp | hp
          · rw [hp]
            intro e he heq
            exact hnot (List.mem_map.mpr ⟨e, he, heq⟩)
          · rw [hp]
            exact rewriteEntries_no_old hne r0.products
      have hnoOldReactants : ∀ e ∈ r'.reactants, e.2 ≠ comp._id := by
        by_cases hri : rid ∈ comp.reactantIn.getD []
        · exact fixReactants_no_old hne _ _ _ hst2 rid hri r' hr'
        · have hnot : comp._id ∉ r0.reactants.map Prod.snd := by
            intro hin
            exact hri ((hcompl rid hrid r0 h0).2 hin)
          have hr1no : ∀ e ∈ r1.reactants, e.2 ≠ comp._id := by
            rw [hreactEq]
            intro e he heq
            exact hnot (List.mem_map.mpr ⟨e, he, heq⟩)
          rcases hreactAlt with hp | hp
          · rw [hp]; exact hr1no
          · rw [hp]; exact rewriteEntries_no_old hne r1.reactants
      exact ⟨hnoOldProducts, hnoOldReactants⟩



/-- C7 witness: renaming `Cold` to `Cnew` on a one-reaction store rewrites
the reactant entry, and the hypotheses of `fix_rxn_pointers_spec` hold at
this concrete input. -/
theorem fix_rxn_pointers_spec_witness :
    ∃ st',
      fix_rxn_pointers [("R1", mrxnW)] "Cnew" mcompW
        = some (st', { mcompW with _id := "Cnew" }) ∧
      ∀ rid ∈ mcompW.productOf.getD [] ++ mcompW.reactantIn.getD [],
        ∀ r', dlookup st' rid = some r' →
          (∀ e ∈ r'.products, e.2 ≠ mcompW._id) ∧
          (∀ e ∈ r'.reactants, e.2 ≠ mcompW._id) :=
  (fix_rxn_pointers_spec [("R1", mrxnW)] "Cnew" mcompW).2.2
    (by decide) (by decide) (by decide)
    (by
      intro rid hrid r hr
      have hrid' : rid = "R1" := by simpa [mcompW] using hrid
      subst hrid'
      have hr' : mrxnW = r := by simpa [dlookup] using hr
      subst hr'
      constructor
      · intro hin
        exact absurd hin (by decide)
      · intro hin
        simp [mcompW])

/-! ## Counter lemmas -/


theorem dlookup_isSome_iff_mem {α : Type} (d : Dict α) (k : String) :
    (dlookup d k).isSome ↔ k ∈ d.map Prod.fst := by
  induction d with
  | nil => simp [dlookup]
  | cons p rest ih =>
    obtain ⟨k0, v0⟩ := p
    by_cases h : k0 = k
    · subst h
      simp [dlookup]
    · simp only [dlookup, if_neg h, List.map_cons, List.mem_cons]
      rw [ih]
      constructor
      · exact Or.inr
      · rintro (he | hm)
        · exact absurd he.symm h
        · exact hm

theorem mem_lookup_of_nodup {α : Type} {d : Dict α} (hd : NodupKeys d)
    {k : String} {v : α} (h : (k, v) ∈ d) : dlookup d k = some v := by
  induction d with
  | nil => simp at h
  | cons p rest ih =>
    obtain ⟨k0, v0⟩ := p
    have hd2 : (k0 :: rest.map Prod.fst).Nodup := hd
    rcases List.mem_cons.mp h with he | hm
    · obtain ⟨he1, he2⟩ := Prod.mk.injEq .. ▸ he
      subst he1; subst he2
      simp [dlookup]
    · have hk : k0 ≠ k := by
        intro he
        subst he
        exact (List.nodup_cons.mp hd2).1
          (List.mem_map.mpr ⟨(k0, v), hm, rfl⟩)
      have hd' : NodupKeys rest := (List.nodup_cons.mp hd2).2
      simp [dlookup, hk, ih hd' hm]

theorem cget_cincr (c : Counter) (k k' : String) (n : Int) :
    cget (cincr c k n) k' = cget c k' + if k = k' then n else 0 := by
  unfold cincr
  split
  case isTrue h =>
    unfold cget
    rw [dlookup_map_snd c (fun k1 v1 => if k1 = k then v1 + n else v1) k']
    by_cases hk : k = k'
    · subst hk
      obtain ⟨v0, hv⟩ := Option.isSome_iff_exists.mp h
      rw [hv]
      simp
    · rw [if_neg hk]
      have h2 : ¬ k' = k := fun hh => hk hh.symm
      cases dlookup c k' with
      | none => simp
      | some v => simp [h2]
  case isFalse h =>
    unfold cget
    rw [dlookup_append]
    by_cases hk : k = k'
    · subst hk
      rw [Option.not_isSome_iff_eq_none] at h
      rw [h]
      simp [dlookup]
    · cases hl : dlookup c k' with
      | none => simp [dlookup, fun hh : k = k' => hk hh, hk]
      | some v => simp [hk]

theorem cget_cset (c : Counter) (k k' : String) (v : Int) :
    cget (cset c k v) k' = if k = k' then v else cget c k' := by
  unfold cset
  split
  case isTrue h =>
    unfold cget
    rw [dlookup_map_snd c (fun k1 v1 => if k1 = k then v else v1) k']
    by_cases hk : k = k'
    · subst hk
      obtain ⟨v0, hv⟩ := Option.isSome_iff_exists.mp h
      rw [hv]
      simp
    · rw [if_neg hk]
      have h2 : ¬ k' = k := fun hh => hk hh.symm
      cases dlookup c k' with
      | none => simp
      | some v0 => simp [h2]
  case isFalse h =>
    unfold cget
    rw [dlookup_append]
    by_cases hk : k = k'
    · subst hk
      rw [Option.not_isSome_iff_eq_none] at h
      rw [h]
      simp [dlookup]
    · cases hl : dlookup c k' with
      | none => simp [dlookup, hk]
      | some v0 => simp [hk]

theorem keys_map_snd {α : Type} (d : Dict α) (g : String → α → α) :
    (d.map fun p => (p.1, g p.1 p.2)).map Prod.fst = d.map Prod.fst := by
  rw [List.map_map]
  apply List.map_congr_left
  intro p _
  rfl

theorem nodupKeys_dinsert {α : Type} {d : Dict α} (hd : NodupKeys d)
    (k : String) (v : α) : NodupKeys (dinsert d k v) := by
  unfold dinsert
  split
  case isTrue _ =>
    unfold NodupKeys
    rw [keys_map_snd d (fun k1 v1 => if k1 = k then v else v1)]
    exact hd
  case isFalse h =>
    unfold NodupKeys
    rw [List.map_append]
    apply List.nodup_append_comm.mp
    apply List.nodup_cons.mpr
    refine ⟨?_, hd⟩
    intro hmem
    exact h ((dlookup_isSome_iff_mem d k).mpr hmem)

theorem nodupKeys_cincr {c : Counter} (hc : NodupKeys c) (k : String) (n : Int) :
    NodupKeys (cincr c k n) := by
  unfold cincr
  split
  case isTrue _ =>
    unfold NodupKeys
    rw [keys_map_snd c (fun k1 v1 => if k1 = k then v1 + n else v1)]
    exact hc
  case isFalse h =>
    unfold NodupKeys
    rw [List.map_append]
    apply List.nodup_append_comm.mp
    apply List.nodup_cons.mpr
    refine ⟨?_, hc⟩
    intro hmem
    exact h ((dlookup_isSome_iff_mem c k).mpr hmem)

theorem nodupKeys_cset {c : Counter} (hc : NodupKeys c) (k : String) (v : Int) :
    NodupKeys (cset c k v) := by
  unfold cset
  split
  case isTrue _ =>
    unfold NodupKeys
    rw [keys_map_snd c (fun k1 v1 => if k1 = k then v else v1)]
    exact hc
  case isFalse h =>
    unfold NodupKeys
    rw [List.map_append]
    apply List.nodup_append_comm.mp
    apply List.nodup_cons.mpr
    refine ⟨?_, hc⟩
    intro hmem
    exact h ((dlookup_isSome_iff_mem c k).mpr hmem)

theorem foldl_preserve {β γ : Type} {P : β → Prop} {f : β → γ → β}
    (hf : ∀ b x, P b → P (f b x)) :
    ∀ (l : List γ) (b : β), P b → P (l.foldl f b)
  | [], _, hb => hb
  | x :: l, b, hb => foldl_preserve hf l (f b x) (hf b x hb)

theorem nodupKeys_halfAtoms (cpds : Dict Cpd) (ctr : Counter) (charge : Int) :
    NodupKeys (halfAtoms cpds ctr charge) := by
  unfold halfAtoms
  apply nodupKeys_cset
  apply foldl_preserve (P := NodupKeys)
  · intro acc p hacc
    apply foldl_preserve (P := NodupKeys)
    · intro acc2 q h2
      exact nodupKeys_cincr h2 _ _
    · exact hacc
  · exact List.nodup_nil

/-- The Python `Counter` truthiness test of `_run_reaction` line 194:
both one-sided differences empty iff the two counters agree everywhere
(missing keys count as zero). -/
theorem balanced_iff (a b : Counter) (ha : NodupKeys a) (hb : NodupKeys b) :
    (csub a b = [] ∧ csub b a = []) ↔ ∀ k, cget a k = cget b k := by
  have main : ∀ (x y : Counter), csub x y = [] ↔
      ((∀ p ∈ x, p.2 ≤ cget y p.1) ∧
       (∀ p ∈ y, dlookup x p.1 = none → 0 ≤ p.2)) := by
    intro x y
    unfold csub
    rw [List.append_eq_nil, List.filterMap_eq_nil_iff, List.filterMap_eq_nil_iff]
    constructor
    · rintro ⟨h1, h2⟩
      constructor
      · intro p hp
        have hh := h1 p hp
        by_cases hc : 0 < p.2 - cget y p.1
        · simp only [hc, if_pos] at hh
          cases hh
        · omega
      · intro p hp hnone
        have hmem : p ∈ y.filter (fun p => (dlookup x p.1).isNone) :=
          List.mem_filter.mpr ⟨hp, by rw [hnone]; rfl⟩
        have hh := h2 p hmem
        by_cases hc : 0 < 0 - p.2
        · simp only [hc, if_pos] at hh
          cases hh
        · omega
    · rintro ⟨h1, h2⟩
      constructor
      · intro p hp
        have := h1 p hp
        simp only []
        rw [if_neg]
        omega
      · intro p hp
        obtain ⟨hpy, hpn⟩ := List.mem_filter.mp hp
        have := h2 p hpy (Option.isNone_iff_eq_none.mp hpn)
        rw [if_neg]
        omega
  constructor
  · rintro ⟨hab, hba⟩ k
    obtain ⟨h1, h2⟩ := (main a b).mp hab
    obtain ⟨h3, h4⟩ := (main b a).mp hba
    cases hA : dlookup a k with
    | some va =>
      have hga : cget a k = va := by unfold cget; rw [hA]
      have hmemA : (k, va) ∈ a := dlookup_mem hA
      have hva : va ≤ cget b k := h1 (k, va) hmemA
      cases hB : dlookup b k with
      | some vb =>
        have hgb : cget b k = vb := by unfold cget; rw [hB]
        have hmemB : (k, vb) ∈ b := dlookup_mem hB
        have hvb : vb ≤ cget a k := h3 (k, vb) hmemB
        omega
      | none =>
        have hgb : cget b k = 0 := by unfold cget; rw [hB]
        have hpos : 0 ≤ va := h4 (k, va) hmemA hB
        omega
    | none =>
      have hga : cget a k = 0 := by unfold cget; rw [hA]
      cases hB : dlookup b k with
      | some vb =>
        have hgb : cget b k = vb := by unfold cget; rw [hB]
        have hmemB : (k, vb) ∈ b := dlookup_mem hB
        have hvb : vb ≤ cget a k := h3 (k, vb) hmemB
        have hpos : 0 ≤ vb := h2 (k, vb) hmemB hA
        omega
      | none =>
        have hgb : cget b k = 0 := by unfold cget; rw [hB]
        omega
  · intro h
    have hget : ∀ (x : Counter), NodupKeys x → ∀ p ∈ x, cget x p.1 = p.2 := by
      intro x hx p hp
      obtain ⟨k0, v0⟩ := p
      unfold cget
      rw [mem_lookup_of_nodup hx hp]
    refine ⟨(main a b).mpr ⟨?_, ?_⟩, (main b a).mpr ⟨?_, ?_⟩⟩
    · intro p hp
      rw [← hget a ha p hp, h p.1]
    · intro p hp hnone
      have hb0 : cget b p.1 = p.2 := hget b hb p hp
      have ha0 : cget a p.1 = 0 := by unfold cget; rw [hnone]
      have := h p.1
      omega
    · intro p hp
      rw [← hget b hb p hp, h p.1]
    · intro p hp hnone
      have ha0 : cget a p.1 = p.2 := hget a ha p hp
      have hb0 : cget b p.1 = 0 := by unfold cget; rw [hnone]
      have := h p.1
      omega

/-! ## The aggregate atom counter computed by `_make_half_rxn` -/

theorem cget_foldInner (w : Int) (k : String) :
    ∀ (l : Counter) (acc : Counter),
    cget (l.foldl (fun acc2 q => cincr acc2 q.1 (q.2 * w)) acc) k
      = cget acc k + entSum l k * w
  | [], acc => by simp [entSum]
  | q :: l, acc => by
    rw [List.foldl_cons, cget_foldInner w k l _, cget_cincr]
    unfold entSum
    rw [List.map_cons, List.sum_cons]
    by_cases hq : q.1 = k
    · rw [if_pos hq, if_pos hq]
      ring
    · rw [if_neg hq, if_neg hq]
      ring

theorem cget_foldOuter (ctr : Counter) (k : String) :
    ∀ (cs : Dict Cpd) (acc : Counter),
    cget (cs.foldl (fun acc p => p.2.atomCount.foldl
        (fun acc2 q => cincr acc2 q.1 (q.2 * cget ctr p.1)) acc) acc) k
      = cget acc k + (cs.map fun p => entSum p.2.atomCount k * cget ctr p.1).sum
  | [], acc => by simp
  | p :: cs, acc => by
    rw [List.foldl_cons, cget_foldOuter ctr k cs _, cget_foldInner]
    rw [List.map_cons, List.sum_cons]
    ring

theorem cget_halfAtoms (cpds : Dict Cpd) (ctr : Counter) (charge : Int)
    (k : String) :
    cget (halfAtoms cpds ctr charge) k
      = (cpds.map fun p => entSum p.2.atomCount k * cget ctr p.1).sum
        - (if k = "H" then charge else 0) := by
  unfold halfAtoms
  rw [cget_cset]
  have hnil : cget ([] : Counter) k = 0 := by unfold cget dlookup; rfl
  have hnilH : cget ([] : Counter) "H" = 0 := by unfold cget dlookup; rfl
  by_cases hk : "H" = k
  · subst hk
    rw [if_pos rfl, if_pos rfl, cget_foldOuter, hnilH]
    ring
  · rw [if_neg hk, if_neg (fun hh : k = "H" => hk hh.symm), cget_foldOuter, hnil]
    ring

/-! ## Invariants of `halfLoop` and the shape of `_make_half_rxn` output -/

theorem keys_dinsert {α : Type} (d : Dict α) (k : String) (v : α) :
    (dinsert d k v).map Prod.fst =
      if (dlookup d k).isSome then d.map Prod.fst
      else d.map Prod.fst ++ [k] := by
  unfold dinsert
  split
  case isTrue h =>
    rw [keys_map_snd d (fun k1 v1 => if k1 = k then v else v1)]
  case isFalse h =>
    rw [List.map_append]
    rfl

theorem keys_cincr (c : Counter) (k : String) (n : Int) :
    (cincr c k n).map Prod.fst =
      if (dlookup c k).isSome then c.map Prod.fst
      else c.map Prod.fst ++ [k] := by
  unfold cincr
  split
  case isTrue h =>
    rw [keys_map_snd c (fun k1 v1 => if k1 = k then v1 + n else v1)]
  case isFalse h =>
    rw [List.map_append]
    rfl

theorem halfLoop_inv (env : ChemEnv Mol) (g : Int) (lc : Dict Cpd) :
    ∀ (items : List (Mol × String)) (cpds : Dict Cpd) (ctr : Counter) (ch : Int)
      (cpds' : Dict Cpd) (ctr' : Counter) (ch' : Int),
    halfLoop env g lc items cpds ctr ch = some (cpds', ctr', ch') →
    cpds.map Prod.fst = ctr.map Prod.fst → NodupKeys cpds →
    (cpds'.map Prod.fst = ctr'.map Prod.fst ∧ NodupKeys cpds')
  | [], cpds, ctr, ch, cpds', ctr', ch', h => by
    intro hkeys hnodup
    cases h
    exact ⟨hkeys, hnodup⟩
  | (mol, rule) :: rest, cpds, ctr, ch, cpds', ctr', ch', h => by
    intro hkeys hnodup
    simp only [halfLoop] at h
    cases hstep : (if rule = "Any" then _gen_compound env g lc mol
                   else (env.coreactantMols rule).bind env.coreactantDict) with
    | none => rw [hstep] at h; cases h
    | some cpd =>
      rw [hstep] at h
      have hsame : (dlookup ctr cpd._id).isSome = (dlookup cpds cpd._id).isSome := by
        rw [Bool.eq_iff_iff, dlookup_isSome_iff_mem, dlookup_isSome_iff_mem, hkeys]
      refine halfLoop_inv env g lc rest _ _ _ cpds' ctr' ch' h ?_ ?_
      · rw [keys_dinsert, keys_cincr, hsame]
        by_cases hp : (dlookup cpds cpd._id).isSome = true
        · rw [if_pos hp, hkeys, if_pos hp]
        · rw [if_neg hp, hkeys, if_neg hp]
      · exact nodupKeys_dinsert hnodup _ _

theorem filterMap_pairs_cons (d : Dict Cpd) (q : String × Int)
    (ts : List (String × Int)) (c : Cpd) (h : dlookup d q.1 = some c) :
    ((q :: ts).filterMap fun p => (dlookup d p.1).map fun c0 => (p.2, c0))
      = (q.2, c) :: (ts.filterMap fun p => (dlookup d p.1).map fun c0 => (p.2, c0)) := by
  rw [List.filterMap_cons]
  simp [h]

theorem sum_returns (k : String) :
    ∀ (cpds : Dict Cpd) (ctr : Counter),
    cpds.map Prod.fst = ctr.map Prod.fst → NodupKeys cpds →
    ((ctr.filterMap fun p => (dlookup cpds p.1).map fun c => (p.2, c)).map
        fun r => r.1 * entSum r.2.atomCount k).sum
      = (cpds.map fun p => entSum p.2.atomCount k * cget ctr p.1).sum
  | [], ctr, hkeys, _ => by
    cases ctr with
    | nil => rfl
    | cons q ts => simp at hkeys
  | (i, c) :: cs, ctr, hkeys, hnodup => by
    cases ctr with
    | nil => simp at hkeys
    | cons q ts =>
      obtain ⟨i2, s⟩ := q
      simp only [List.map_cons, List.cons.injEq] at hkeys
      obtain ⟨hi, hkeys'⟩ := hkeys
      subst hi
      have hd2 : (i :: cs.map Prod.fst).Nodup := hnodup
      have hiNot : i ∉ cs.map Prod.fst := (List.nodup_cons.mp hd2).1
      have hnodup' : NodupKeys cs := (List.nodup_cons.mp hd2).2
      have hfm : ts.filterMap (fun p => (dlookup ((i, c) :: cs) p.1).map
            fun c0 => (p.2, c0))
          = ts.filterMap (fun p => (dlookup cs p.1).map fun c0 => (p.2, c0)) := by
        apply List.filterMap_congr
        intro p hp
        have hpk : p.1 ∈ ts.map Prod.fst := List.mem_map.mpr ⟨p, hp, rfl⟩
        have hne : i ≠ p.1 := by
          intro he
          rw [← hkeys'] at hpk
          exact hiNot (he ▸ hpk)
        rw [dlookup_cons_ne _ _ hne]
      have hcs : (cs.map fun p => entSum p.2.atomCount k
            * cget ((i, s) :: ts) p.1).sum
          = (cs.map fun p => entSum p.2.atomCount k * cget ts p.1).sum := by
        apply congrArg
        apply List.map_congr_left
        intro p hp
        have hpk : p.1 ∈ cs.map Prod.fst := List.mem_map.mpr ⟨p, hp, rfl⟩
        have hne : i ≠ p.1 := fun he => hiNot (he ▸ hpk)
        unfold cget
        rw [dlookup_cons_ne _ _ hne]
      rw [filterMap_pairs_cons ((i, c) :: cs) (i, s) ts c
        (dlookup_cons_self i c cs)]
      simp only [List.map_cons, List.sum_cons]
      rw [hfm, hcs, sum_returns k cs ts hkeys' hnodup']
      have hgs : cget ((i, s) :: ts) i = s := by
        unfold cget
        rw [dlookup_cons_self]
      rw [hgs]
      ring

theorem halfLoop_charge (env : ChemEnv Mol) (g : Int) (lc : Dict Cpd) :
    ∀ (items : List (Mol × String)) (cpds : Dict Cpd) (ctr : Counter) (ch : Int)
      (cpds' : Dict Cpd) (ctr' : Counter) (ch' : Int),
    halfLoop env g lc items cpds ctr ch = some (cpds', ctr', ch') →
    ch' = ch + (items.map fun mr => env.getFormalCharge mr.1).sum
  | [], cpds, ctr, ch, cpds', ctr', ch', h => by
    cases h
    simp
  | (mol, rule) :: rest, cpds, ctr, ch, cpds', ctr', ch', h => by
    simp only [halfLoop] at h
    cases hstep : (if rule = "Any" then _gen_compound env g lc mol
                   else (env.coreactantMols rule).bind env.coreactantDict) with
    | none => rw [hstep] at h; cases h
    | some cpd =>
      rw [hstep] at h
      have := halfLoop_charge env g lc rest _ _ _ cpds' ctr' ch' h
      rw [this]
      simp only [List.map_cons, List.sum_cons]
      ring

/-- Output shape of `_make_half_rxn`: the aggregate counter has unique keys
and reads, at every element, the stoichiometry-weighted sum of the
per-compound atom counts of the returned `(stoich, compound)` list, with
the half's total formal charge subtracted from the `"H"` entry. -/
theorem make_half_rxn_atoms (env : ChemEnv Mol) (g : Int) (lc : Dict Cpd)
    (mols : List Mol) (rules : List String) (ret : List (Int × Cpd))
    (atoms : Counter)
    (h : _make_half_rxn env g lc mols rules = some (ret, atoms)) :
    NodupKeys atoms ∧
    ∀ k, cget atoms k
      = weightedAtoms ret k - (if k = "H" then halfCharge env mols rules else 0) := by
  unfold _make_half_rxn at h
  cases hl : halfLoop env g lc (mols.zip rules) [] [] 0 with
  | none => rw [hl] at h; cases h
  | some out =>
    obtain ⟨cpds, ctr, ch⟩ := out
    rw [hl] at h
    simp only [Option.some.injEq, Prod.mk.injEq] at h
    obtain ⟨hret, hatoms⟩ := h
    have hinv := halfLoop_inv env g lc (mols.zip rules) [] [] 0 cpds ctr ch hl
      rfl List.nodup_nil
    have hch : ch = halfCharge env mols rules := by
      have := halfLoop_charge env g lc (mols.zip rules) [] [] 0 cpds ctr ch hl
      unfold halfCharge
      omega
    refine ⟨hatoms ▸ nodupKeys_halfAtoms cpds ctr ch, ?_⟩
    intro k
    unfold weightedAtoms
    rw [← hch, ← hatoms, ← hret, cget_halfAtoms,
      sum_returns k cpds ctr hinv.1 hinv.2]

/-! ## Where the compounds of a half reaction come from -/

theorem foldl_preserve_mem {β γ : Type} {P : β → Prop} {f : β → γ → β} :
    ∀ (l : List γ), (∀ b x, x ∈ l → P b → P (f b x)) →
    ∀ (b : β), P b → P (l.foldl f b)
  | [], _, _, hb => hb
  | x :: l, hf, b, hb =>
    foldl_preserve_mem l (fun b' x' hx' => hf b' x' (List.mem_cons_of_mem _ hx'))
      (f b x) (hf b x (List.mem_cons_self _ _) hb)

theorem gen_compound_cases (env : ChemEnv Mol) (g : Int) (lc : Dict Cpd)
    (mol : Mol) (c : Cpd) (h : _gen_compound env g lc mol = some c) :
    (∃ key, dlookup lc key = some c) ∨
    (c.ctype = "Predicted" ∧ c.generation = g ∧ c.expand = true ∧
     c.reactantIn = [] ∧ c.productOf = []) := by
  unfold _gen_compound at h
  cases hm : env.molToPred mol with
  | none => rw [hm] at h; cases h
  | some core =>
    rw [hm] at h
    simp only [] at h
    by_cases hne : core.cpdId ≠ ""
    · rw [if_pos hne] at h
      cases hl : dlookup lc core.cpdId with
      | some cached =>
        rw [hl] at h
        cases h
        exact Or.inl ⟨core.cpdId, hl⟩
      | none =>
        rw [hl] at h
        cases h
        exact Or.inr ⟨rfl, rfl, rfl, rfl, rfl⟩
    · rw [if_neg hne] at h
      cases h

theorem gen_compound_id (env : ChemEnv Mol) (g : Int) (lc : Dict Cpd)
    (mol : Mol) (c : Cpd) (h : _gen_compound env g lc mol = some c) :
    (∃ key, dlookup lc key = some c) ∨ c.ctype = "Predicted" := by
  rcases gen_compound_cases env g lc mol c h with h1 | h2
  · exact Or.inl h1
  · exact Or.inr h2.1

theorem halfLoop_values (env : ChemEnv Mol) (g : Int) (lc : Dict Cpd) :
    ∀ (items : List (Mol × String)) (cpds : Dict Cpd) (ctr : Counter) (ch : Int)
      (cpds' : Dict Cpd) (ctr' : Counter) (ch' : Int),
    halfLoop env g lc items cpds ctr ch = some (cpds', ctr', ch') →
    ∀ k c, (k, c) ∈ cpds' → (k, c) ∈ cpds ∨
      ((∃ mol, _gen_compound env g lc mol = some c) ∨
       (∃ tok cid, env.coreactantMols tok = some cid ∧
           env.coreactantDict cid = some c))
  | [], cpds, ctr, ch, cpds', ctr', ch', h => by
    intro k c hk
    cases h
    exact Or.inl hk
  | (mol, rule) :: rest, cpds, ctr, ch, cpds', ctr', ch', h => by
    intro k c hk
    simp only [halfLoop] at h
    cases hstep : (if rule = "Any" then _gen_compound env g lc mol
                   else (env.coreactantMols rule).bind env.coreactantDict) with
    | none => rw [hstep] at h; cases h
    | some cpd =>
      rw [hstep] at h
      rcases halfLoop_values env g lc rest _ _ _ cpds' ctr' ch' h k c hk
        with hin | hsrc
      · rcases mem_dinsert hin with hold | ⟨_, hv⟩
        · exact Or.inl hold
        · right
          subst hv
          by_cases hr : rule = "Any"
          · rw [if_pos hr] at hstep
            exact Or.inl ⟨mol, hstep⟩
          · rw [if_neg hr] at hstep
            cases hcm : env.coreactantMols rule with
            | none => rw [hcm] at hstep; cases hstep
            | some cid =>
              rw [hcm, Option.some_bind] at hstep
              exact Or.inr ⟨rule, cid, hcm, hstep⟩
      · exact Or.inr hsrc

theorem make_half_values (env : ChemEnv Mol) (g : Int) (lc : Dict Cpd)
    (mols : List Mol) (rules : List String) (ret : List (Int × Cpd))
    (atoms : Counter)
    (h : _make_half_rxn env g lc mols rules = some (ret, atoms)) :
    ∀ q ∈ ret,
      (∃ mol, _gen_compound env g lc mol = some q.2) ∨
      (∃ tok cid, env.coreactantMols tok = some cid ∧
          env.coreactantDict cid = some q.2) := by
  intro q hq
  unfold _make_half_rxn at h
  cases hl : halfLoop env g lc (mols.zip rules) [] [] 0 with
  | none => rw [hl] at h; cases h
  | some out =>
    obtain ⟨cpds, ctr, ch⟩ := out
    rw [hl] at h
    simp only [Option.some.injEq, Prod.mk.injEq] at h
    obtain ⟨hret, _⟩ := h
    rw [← hret] at hq
    obtain ⟨p, _, hp2⟩ := List.mem_filterMap.mp hq
    cases hlk : dlookup cpds p.1 with
    | none => rw [hlk] at hp2; cases hp2
    | some c0 =>
      rw [hlk] at hp2
      simp only [Option.map_some', Option.some.injEq] at hp2
      rcases halfLoop_values env g lc (mols.zip rules) [] [] 0 cpds ctr ch hl
        p.1 c0 (dlookup_mem hlk) with hnil | hsrc
      · simp at hnil
      · have hq2 : q.2 = c0 := by rw [← hp2]
        rw [hq2]
        exact hsrc

/-! ## Failure of `_make_half_rxn` does not depend on the compound cache -/

theorem gen_compound_eq_none_iff (env : ChemEnv Mol) (g : Int) (lc : Dict Cpd)
    (mol : Mol) :
    _gen_compound env g lc mol = none ↔
      (env.molToPred mol = none ∨
       ∃ core, env.molToPred mol = some core ∧ core.cpdId = "") := by
  unfold _gen_compound
  cases hm : env.molToPred mol with
  | none => simp
  | some core =>
    simp only []
    by_cases hc : core.cpdId = ""
    · have hcc : ¬ core.cpdId ≠ "" := by simpa using hc
      rw [if_neg hcc]
      simp [hc]
    · have hne : core.cpdId ≠ "" := hc
      rw [if_pos hne]
      cases hl : dlookup lc core.cpdId with
      | none => simp [hc]
      | some cached => simp [hc]

theorem halfLoop_isNone_indep (env : ChemEnv Mol) (g : Int) (lc lc2 : Dict Cpd) :
    ∀ (items : List (Mol × String)) (cpds : Dict Cpd) (ctr : Counter) (ch : Int)
      (cpds2 : Dict Cpd) (ctr2 : Counter) (ch2 : Int),
    (halfLoop env g lc items cpds ctr ch = none) ↔
    (halfLoop env g lc2 items cpds2 ctr2 ch2 = none)
  | [], cpds, ctr, ch, cpds2, ctr2, ch2 => by simp [halfLoop]
  | (mol, rule) :: rest, cpds, ctr, ch, cpds2, ctr2, ch2 => by
    simp only [halfLoop]
    by_cases hr : rule = "Any"
    · rw [if_pos hr, if_pos hr]
      cases h1 : _gen_compound env g lc mol with
      | none =>
        have h2 : _gen_compound env g lc2 mol = none :=
          (gen_compound_eq_none_iff env g lc2 mol).mpr
            ((gen_compound_eq_none_iff env g lc mol).mp h1)
        rw [h2]
      | some c1 =>
        cases h2 : _gen_compound env g lc2 mol with
        | none =>
          have h1' : _gen_compound env g lc mol = none :=
            (gen_compound_eq_none_iff env g lc mol).mpr
              ((gen_compound_eq_none_iff env g lc2 mol).mp h2)
          rw [h1'] at h1
          cases h1
        | some c2 =>
          simp only []
          exact halfLoop_isNone_indep env g lc lc2 rest _ _ _ _ _ _
    · rw [if_neg hr, if_neg hr]
      cases hc : (env.coreactantMols rule).bind env.coreactantDict with
      | none => simp
      | some c =>
        simp only []
        exact halfLoop_isNone_indep env g lc lc2 rest _ _ _ _ _ _

theorem make_half_isNone_indep (env : ChemEnv Mol) (g : Int) (mols : List Mol)
    (rules : List String) (lc lc2 : Dict Cpd)
    (h : _make_half_rxn env g lc mols rules = none) :
    _make_half_rxn env g lc2 mols rules = none := by
  unfold _make_half_rxn at h ⊢
  have hno : halfLoop env g lc (mols.zip rules) [] [] 0 = none := by
    cases h1 : halfLoop env g lc (mols.zip rules) [] [] 0 with
    | none => rfl
    | some out1 =>
      obtain ⟨a, b, c⟩ := out1
      rw [h1] at h
      simp at h
  have hno2 : halfLoop env g lc2 (mols.zip rules) [] [] 0 = none :=
    (halfLoop_isNone_indep env g lc lc2 (mols.zip rules) [] [] 0 [] [] 0).mp hno
  rw [hno2]

/-! ## C6: error handling of `_run_reaction` -/

/-- C6: `_run_reaction` never propagates a failure: if `RunReactants`
raises, or the reactant half reaction fails, the local dictionaries come
back unchanged; and a candidate product tuple whose product half reaction
fails (a condition independent of the compound cache) is skipped, leaving
the fold over the remaining candidate tuples exactly as if the failing
tuple were absent. -/
theorem run_reaction_error_handling (env : ChemEnv Mol) (ruleName : String)
    (ruleReactants ruleProducts : List String) (mols : List Mol)
    (lc : Dict Cpd) (lr : Dict RxnRec) (g : Int) :
    (env.runReactants mols = none →
      _run_reaction env ruleName ruleReactants ruleProducts mols lc lr g
        = (lc, lr)) ∧
    (_make_half_rxn env g lc mols ruleReactants = none →
      _run_reaction env ruleName ruleReactants ruleProducts mols lc lr g
        = (lc, lr)) ∧
    (∀ (reacts : List (Int × Cpd)) (rset : List String) (ratoms : Counter)
       (st : Dict Cpd × Dict RxnRec) (l1 l2 : List (List Mol)) (bad : List Mol),
      _make_half_rxn env g [] bad ruleProducts = none →
      (l1 ++ bad :: l2).foldl
          (processCandidate env ruleName ruleProducts g reacts rset ratoms) st
        = (l1 ++ l2).foldl
          (processCandidate env ruleName ruleProducts g reacts rset ratoms) st) := by
  refine ⟨?_, ?_, ?_⟩
  · intro h
    unfold _run_reaction
    rw [h]
  · intro h
    unfold _run_reaction
    rw [h]
    cases env.runReactants mols <;> rfl
  · intro reacts rset ratoms st l1 l2 bad hbad
    rw [List.foldl_append, List.foldl_append, List.foldl_cons]
    have hskip : processCandidate env ruleName ruleProducts g reacts rset ratoms
        (l1.foldl (processCandidate env ruleName ruleProducts g reacts rset ratoms) st)
        bad
        = l1.foldl (processCandidate env ruleName ruleProducts g reacts rset ratoms) st := by
      unfold processCandidate
      rw [make_half_isNone_indep env g bad ruleProducts [] _ hbad]
    rw [hskip]


/-- C6 witness: with a raising transform nothing is added. -/
theorem run_reaction_error_handling_witness :
    _run_reaction envFail "r" ["Any"] ["Any"] [0] [] [] 0 = ([], []) :=
  (run_reaction_error_handling envFail "r" ["Any"] ["Any"] [0] [] [] 0).1 rfl

/-! ## A concrete environment that emits one reaction
(reactant `Cr` with atom count `{H: 1}` and formal charge `+1`; product
`Cp` with empty atom count and charge `0`; the charge-corrected counters
agree, so the candidate is accepted although the raw `H` counts differ). -/





theorem envW_run :
    _run_reaction envW "rule1" ["Any"] ["Any"] [0] [] [] 5
      = ([("Cp", cpW)], [("Rx", recW)]) := by
  decide

/-! ## C5: reactant/product id sets of emitted reactions are disjoint -/

theorem map_snd_pairs (l : List (Int × Cpd)) :
    ((l.map fun q => (q.1, q.2._id)).map Prod.snd) = l.map fun q => q.2._id := by
  rw [List.map_map]
  rfl


theorem processCandidate_disjoint (env : ChemEnv Mol) (ruleName : String)
    (ruleProducts : List String) (g : Int) (reacts : List (Int × Cpd))
    (ratoms : Counter) (lr : Dict RxnRec) (st : Dict Cpd × Dict RxnRec)
    (x : List Mol) (hP : DisjointInv lr st) :
    DisjointInv lr (processCandidate env ruleName ruleProducts g reacts
      (reacts.map fun q => q.2._id) ratoms st x) := by
  intro k r hout
  unfold processCandidate at hout
  cases hmk : _make_half_rxn env g st.1 x ruleProducts with
  | none =>
    rw [hmk] at hout
    exact hP k r hout
  | some out =>
    obtain ⟨prods, patoms⟩ := out
    rw [hmk] at hout
    simp only [] at hout
    by_cases hemp : prods = []
    · rw [if_pos hemp] at hout
      exact hP k r hout
    rw [if_neg hemp] at hout
    by_cases hany : prods.any (fun p => p.2._id ∈ reacts.map fun q => q.2._id) = true
    · rw [if_pos hany] at hout
      exact hP k r hout
    rw [if_neg hany] at hout
    by_cases hbal : ¬ (csub ratoms patoms = [] ∧ csub patoms ratoms = [])
    · rw [if_pos hbal] at hout
      exact hP k r hout
    rw [if_neg hbal] at hout
    simp only [] at hout
    have hnomem : ∀ p ∈ prods, p.2._id ∉ reacts.map fun q => q.2._id := by
      intro p hp hmem
      exact hany (List.any_eq_true.mpr ⟨p, hp, by simpa using hmem⟩)
    cases hlook : dlookup st.2 (env.getReactionHash reacts prods).1 with
    | none =>
      rw [hlook] at hout
      by_cases hk : k = (env.getReactionHash reacts prods).1
      · subst hk
        rw [dlookup_dinsert_self] at hout
        have h1 : r.reactants = reacts.map fun q => (q.1, q.2._id) := by
          cases hout
          rfl
        have h2 : r.products = prods.map fun q => (q.1, q.2._id) := by
          cases hout
          rfl
        right
        rw [h1, h2, map_snd_pairs, map_snd_pairs]
        intro cid hcidR hcidP
        obtain ⟨p, hp, hpe⟩ := List.mem_map.mp hcidP
        exact hnomem p hp (hpe ▸ hcidR)
      · rw [dlookup_dinsert_ne _ _ _ _ hk] at hout
        exact hP k r hout
    | some oldRec =>
      rw [hlook] at hout
      by_cases hk : k = (env.getReactionHash reacts prods).1
      · subst hk
        rw [dlookup_dinsert_self] at hout
        have h1 : r.reactants = oldRec.reactants := by
          cases hout
          rfl
        have h2 : r.products = oldRec.products := by
          cases hout
          rfl
        rcases hP _ oldRec hlook with ⟨r0, h0, he1, he2⟩ | hdisj
        · exact Or.inl ⟨r0, h0, h1.trans he1, h2.trans he2⟩
        · right
          rw [h1, h2]
          exact hdisj
      · rw [dlookup_dinsert_ne _ _ _ _ hk] at hout
        exact hP k r hout

/-- C5: every reaction record in the output of `_run_reaction` either was
already present (with its reactant and product lists unchanged — only the
operator set can have grown) or has disjoint reactant-id and product-id
sets: a candidate product tuple whose product ids intersect the reactant
ids is rejected and adds nothing to the local reaction delta. -/
theorem run_reaction_disjoint (env : ChemEnv Mol) (ruleName : String)
    (ruleReactants ruleProducts : List String) (mols : List Mol)
    (lc : Dict Cpd) (lr : Dict RxnRec) (g : Int) (k : String) (r : RxnRec)
    (hout : dlookup
      (_run_reaction env ruleName ruleReactants ruleProducts mols lc lr g).2 k
      = some r) :
    (∃ r0, dlookup lr k = some r0 ∧ r.reactants = r0.reactants ∧
      r.products = r0.products) ∨
    (∀ cid ∈ r.reactants.map Prod.snd, cid ∉ r.products.map Prod.snd) := by
  unfold _run_reaction at hout
  cases hrr : env.runReactants mols with
  | none =>
    rw [hrr] at hout
    exact Or.inl ⟨r, hout, rfl, rfl⟩
  | some productSets =>
    rw [hrr] at hout
    cases hmk : _make_half_rxn env g lc mols ruleReactants with
    | none =>
      rw [hmk] at hout
      exact Or.inl ⟨r, hout, rfl, rfl⟩
    | some out =>
      obtain ⟨reacts, ratoms⟩ := out
      rw [hmk] at hout
      simp only [] at hout
      have hfold : DisjointInv lr
          (productSets.foldl (processCandidate env ruleName ruleProducts g
            reacts (reacts.map fun q => q.2._id) ratoms) (lc, lr)) := by
        apply foldl_preserve
          (P := DisjointInv lr)
        · intro b x hb
          exact processCandidate_disjoint env ruleName ruleProducts g reacts
            ratoms lr b x hb
        · intro k0 r0 h0
          exact Or.inl ⟨r0, h0, rfl, rfl⟩
      exact hfold k r hout

/-- C5 witness: the record emitted on the concrete environment has
disjoint reactant and product id sets (the theorem's disjunction holds at
this concrete input). -/
theorem run_reaction_disjoint_witness :
    (∃ r0, dlookup ([] : Dict RxnRec) "Rx" = some r0 ∧
      recW.reactants = r0.reactants ∧ recW.products = r0.products) ∨
    (∀ cid ∈ recW.reactants.map Prod.snd, cid ∉ recW.products.map Prod.snd) :=
  run_reaction_disjoint envW "rule1" ["Any"] ["Any"] [0] [] [] 5 "Rx" recW
    (by rw [envW_run]; simp [dlookup])

/-! ## C9: newly added compound records are freshly generated
`Predicted` compounds of the current generation -/


theorem cpdInv_insert {g : Int} {lc d : Dict Cpd} (hQ : CpdInv g lc d)
    {c : Cpd}
    (hsrc : (dlookup lc c._id).isSome = true ∨
      (c.ctype = "Predicted" ∧ c.generation = g ∧ c.expand = true ∧
       c.reactantIn = [] ∧ c.productOf = []))
    (hC : startsWithC c._id = true) :
    CpdInv g lc (dinsert d c._id c) := by
  obtain ⟨hQ1, hQ2⟩ := hQ
  constructor
  · intro k c0 hk
    by_cases he : k = c._id
    · subst he
      rw [dlookup_dinsert_self] at hk
      cases hk
      rfl
    · rw [dlookup_dinsert_ne _ _ _ _ he] at hk
      exact hQ1 k c0 hk
  · intro k c0 hk hnone
    by_cases he : k = c._id
    · subst he
      rw [dlookup_dinsert_self] at hk
      cases hk
      rcases hsrc with hin | hfresh
      · rw [hnone] at hin
        cases hin
      · exact ⟨hC, hfresh.1, hfresh.2.1, hfresh.2.2.1, hfresh.2.2.2.1,
          hfresh.2.2.2.2⟩
    · rw [dlookup_dinsert_ne _ _ _ _ he] at hk
      exact hQ2 k c0 hk hnone

theorem processCandidate_cpds (env : ChemEnv Mol) (ruleName : String)
    (ruleProducts : List String) (g : Int) (reacts : List (Int × Cpd))
    (rset : List String) (ratoms : Counter) (lc : Dict Cpd)
    (hcor : ∀ tok cid c, env.coreactantMols tok = some cid →
      env.coreactantDict cid = some c → startsWithC c._id = false)
    (st : Dict Cpd × Dict RxnRec) (x : List Mol)
    (hQ : CpdInv g lc st.1) :
    CpdInv g lc (processCandidate env ruleName ruleProducts g reacts rset
      ratoms st x).1 := by
  unfold processCandidate
  cases hmk : _make_half_rxn env g st.1 x ruleProducts with
  | none => exact hQ
  | some out =>
    obtain ⟨prods, patoms⟩ := out
    simp only []
    by_cases hemp : prods = []
    · rw [if_pos hemp]
      exact hQ
    rw [if_neg hemp]
    by_cases hany : prods.any (fun p => p.2._id ∈ rset) = true
    · rw [if_pos hany]
      exact hQ
    rw [if_neg hany]
    by_cases hbal : ¬ (csub ratoms patoms = [] ∧ csub patoms ratoms = [])
    · rw [if_pos hbal]
      exact hQ
    rw [if_neg hbal]
    simp only []
    apply foldl_preserve_mem
      (P := CpdInv g lc) prods
    · intro d p hp hd
      by_cases hC : startsWithC p.2._id = true
      · rw [if_pos hC]
        rcases make_half_values env g st.1 x ruleProducts prods patoms hmk p hp
          with ⟨mol, hgen⟩ | ⟨tok, cid, hcm, hcd⟩
        · rcases gen_compound_cases env g st.1 mol p.2 hgen with hcache | hfresh
          · rcases hcache with ⟨key, hkey⟩
            have hid : p.2._id = key := hQ.1 key p.2 hkey
            apply cpdInv_insert hd ?_ hC
            cases hlc : dlookup lc key with
            | some c0 =>
              left
              rw [hid, hlc]
              rfl
            | none =>
              right
              exact (hQ.2 key p.2 hkey hlc).2
          · exact cpdInv_insert hd (Or.inr hfresh) hC
        · rw [hcor tok cid p.2 hcm hcd] at hC
          cases hC
      · rw [if_neg hC]
        exact hd
    · exact hQ

/-- C9: provided that no coreactant record carries a `C`-prefixed id (in
the pipeline coreactant ids are `X`-prefixed) and that the input local
compound dictionary keys every record by its own `_id` (the invariant all
delta dictionaries satisfy), every compound record that `_run_reaction`
adds to the local compound delta — one at a key that was not already
present — has an `_id` beginning with `C`, `Type` `"Predicted"`,
`Generation` equal to the call's generation argument, `Expand` set, and
empty `Reactant_in` and `Product_of` lists. -/
theorem run_reaction_new_cpds (env : ChemEnv Mol) (ruleName : String)
    (ruleReactants ruleProducts : List String) (mols : List Mol)
    (lc : Dict Cpd) (lr : Dict RxnRec) (g : Int)
    (hcor : ∀ tok cid c, env.coreactantMols tok = some cid →
      env.coreactantDict cid = some c → startsWithC c._id = false)
    (hlcid : ∀ k c, dlookup lc k = some c → c._id = k)
    (k : String) (c : Cpd)
    (hout : dlookup
      (_run_reaction env ruleName ruleReactants ruleProducts mols lc lr g).1 k
      = some c)
    (hnew : dlookup lc k = none) :
    startsWithC c._id = true ∧ c.ctype = "Predicted" ∧ c.generation = g ∧
    c.expand = true ∧ c.reactantIn = [] ∧ c.productOf = [] := by
  unfold _run_reaction at hout
  cases hrr : env.runReactants mols with
  | none =>
    rw [hrr] at hout
    rw [hnew] at hout
    cases hout
  | some productSets =>
    rw [hrr] at hout
    cases hmk : _make_half_rxn env g lc mols ruleReactants with
    | none =>
      rw [hmk] at hout
      rw [hnew] at hout
      cases hout
    | some out =>
      obtain ⟨reacts, ratoms⟩ := out
      rw [hmk] at hout
      simp only [] at hout
      have hfold := foldl_preserve
        (P := fun st : Dict Cpd × Dict RxnRec => CpdInv g lc st.1)
        (f := processCandidate env ruleName ruleProducts g reacts
          (reacts.map fun q => q.2._id) ratoms)
        (fun b x hb => processCandidate_cpds env ruleName ruleProducts g reacts
          (reacts.map fun q => q.2._id) ratoms lc hcor b x hb)
        productSets (lc, lr)
        ⟨hlcid, fun k0 c0 h0 hn0 => by rw [hn0] at h0; cases h0⟩
      exact hfold.2 k c hout hnew

/-- C9 witness: at the concrete environment the freshly added compound
`Cp` carries all the claimed fields. -/
theorem run_reaction_new_cpds_witness :
    startsWithC cpW._id = true ∧ cpW.ctype = "Predicted" ∧
    cpW.generation = 5 ∧ cpW.expand = true ∧ cpW.reactantIn = [] ∧
    cpW.productOf = [] :=
  run_reaction_new_cpds envW "rule1" ["Any"] ["Any"] [0] [] [] 5
    (by intro tok cid c h1 _; simp [envW] at h1)
    (by intro k c h; simp [dlookup] at h)
    "Cp" cpW (by rw [envW_run]; simp [dlookup]) rfl

/-! ## C4: atom balance of emitted reactions -/


theorem processCandidate_balance (env : ChemEnv Mol) (ruleName : String)
    (ruleProducts : List String) (g : Int) (reacts : List (Int × Cpd))
    (rset : List String) (ratoms : Counter) (lr : Dict RxnRec)
    (productSets : List (List Mol)) (hra : NodupKeys ratoms)
    (st : Dict Cpd × Dict RxnRec) (x : List Mol) (hx : x ∈ productSets)
    (hP : BalInv env g ruleProducts reacts ratoms productSets lr st) :
    BalInv env g ruleProducts reacts ratoms productSets lr
      (processCandidate env ruleName ruleProducts g reacts rset
        ratoms st x) := by
  intro k r hout hnew
  unfold processCandidate at hout
  cases hmk : _make_half_rxn env g st.1 x ruleProducts with
  | none =>
    rw [hmk] at hout
    exact hP k r hout hnew
  | some out =>
    obtain ⟨prods, patoms⟩ := out
    rw [hmk] at hout
    simp only [] at hout
    by_cases hemp : prods = []
    · rw [if_pos hemp] at hout
      exact hP k r hout hnew
    rw [if_neg hemp] at hout
    by_cases hany : prods.any (fun p => p.2._id ∈ rset) = true
    · rw [if_pos hany] at hout
      exact hP k r hout hnew
    rw [if_neg hany] at hout
    by_cases hbal : ¬ (csub ratoms patoms = [] ∧ csub patoms ratoms = [])
    · rw [if_pos hbal] at hout
      exact hP k r hout hnew
    rw [if_neg hbal] at hout
    simp only [] at hout
    obtain ⟨hpa, -⟩ :=
      make_half_rxn_atoms env g st.1 x ruleProducts prods patoms hmk
    have hbaleq : ∀ el, cget ratoms el = cget patoms el :=
      (balanced_iff ratoms patoms hra hpa).mp (not_not.mp hbal)
    cases hlook : dlookup st.2 (env.getReactionHash reacts prods).1 with
    | none =>
      rw [hlook] at hout
      by_cases hk : k = (env.getReactionHash reacts prods).1
      · subst hk
        rw [dlookup_dinsert_self] at hout
        have h1 : r.reactants = reacts.map fun q => (q.1, q.2._id) := by
          cases hout
          rfl
        have h2 : r.products = prods.map fun q => (q.1, q.2._id) := by
          cases hout
          rfl
        exact ⟨x, st.1, prods, patoms, hx, hmk, h1, h2, hbaleq⟩
      · rw [dlookup_dinsert_ne _ _ _ _ hk] at hout
        exact hP k r hout hnew
    | some oldRec =>
      rw [hlook] at hout
      by_cases hk : k = (env.getReactionHash reacts prods).1
      · subst hk
        rw [dlookup_dinsert_self] at hout
        have h1 : r.reactants = oldRec.reactants := by
          cases hout
          rfl
        have h2 : r.products = oldRec.products := by
          cases hout
          rfl
        obtain ⟨x0, c0, pds0, pa0, hx0, hmk0, he1, he2, hb0⟩ :=
          hP _ oldRec hlook hnew
        exact ⟨x0, c0, pds0, pa0, hx0, hmk0, h1.trans he1, h2.trans he2, hb0⟩
      · rw [dlookup_dinsert_ne _ _ _ _ hk] at hout
        exact hP k r hout hnew

/-- C4 (amended): every reaction record emitted by `_run_reaction` at a
new key was built from the reactant half `_make_half_rxn` computed for the
input molecules and from a product half `_make_half_rxn` computed for one
of the candidate tuples `RunReactants` returned; the two aggregate
counters the balance check of reactions.py 194 compares agree at every
element, hence the CHARGE-CORRECTED stoichiometry-weighted atom-count
vectors of the two halves agree for every element (the `"H"` entry of each
side is reduced by that side's total formal charge, reactions.py 92-114);
in particular, whenever the total formal charges of the two sides
coincide, the raw stoichiometry-weighted atom-count vectors agree for
every element. -/
theorem run_reaction_balance (env : ChemEnv Mol) (ruleName : String)
    (ruleReactants ruleProducts : List String) (mols : List Mol)
    (lc : Dict Cpd) (lr : Dict RxnRec) (g : Int) (k : String) (r : RxnRec)
    (hout : dlookup
      (_run_reaction env ruleName ruleReactants ruleProducts mols lc lr g).2 k
      = some r)
    (hnew : dlookup lr k = none) :
    ∃ productSets, env.runReactants mols = some productSets ∧
    ∃ (rts : List (Int × Cpd)) (rAtoms : Counter),
      _make_half_rxn env g lc mols ruleReactants = some (rts, rAtoms) ∧
      r.reactants = rts.map (fun q => (q.1, q.2._id)) ∧
      ∃ (x : List Mol) (cache : Dict Cpd) (pds : List (Int × Cpd))
        (pAtoms : Counter),
        x ∈ productSets ∧
        _make_half_rxn env g cache x ruleProducts = some (pds, pAtoms) ∧
        r.products = pds.map (fun q => (q.1, q.2._id)) ∧
        (∀ el, cget rAtoms el = cget pAtoms el) ∧
        (∀ el, weightedAtoms rts el
             - (if el = "H" then halfCharge env mols ruleReactants else 0)
           = weightedAtoms pds el
             - (if el = "H" then halfCharge env x ruleProducts else 0)) ∧
        (halfCharge env mols ruleReactants = halfCharge env x ruleProducts →
          ∀ el, weightedAtoms rts el = weightedAtoms pds el) := by
  unfold _run_reaction at hout
  cases hrr : env.runReactants mols with
  | none =>
    rw [hrr] at hout
    rw [hnew] at hout
    cases hout
  | some productSets =>
    rw [hrr] at hout
    cases hmk : _make_half_rxn env g lc mols ruleReactants with
    | none =>
      rw [hmk] at hout
      rw [hnew] at hout
      cases hout
    | some out =>
      obtain ⟨reacts, ratoms⟩ := out
      rw [hmk] at hout
      simp only [] at hout
      obtain ⟨hra, hform⟩ :=
        make_half_rxn_atoms env g lc mols ruleReactants reacts ratoms hmk
      have hfold := foldl_preserve_mem
        (P := BalInv env g ruleProducts reacts ratoms productSets lr)
        (f := processCandidate env ruleName ruleProducts g reacts
          (reacts.map fun q => q.2._id) ratoms)
        productSets
        (fun b x hx hb => processCandidate_balance env ruleName ruleProducts g
          reacts (reacts.map fun q => q.2._id) ratoms lr productSets hra
          b x hx hb)
        (lc, lr)
        (fun k0 r0 h0 hn0 => by rw [hn0] at h0; cases h0)
      obtain ⟨x, cache, pds, pAtoms, hx, hmkp, hr1, hr2, hcg⟩ :=
        hfold k r hout hnew
      obtain ⟨-, hpform⟩ :=
        make_half_rxn_atoms env g cache x ruleProducts pds pAtoms hmkp
      have hmain : ∀ el, weightedAtoms reacts el
            - (if el = "H" then halfCharge env mols ruleReactants else 0)
          = weightedAtoms pds el
            - (if el = "H" then halfCharge env x ruleProducts else 0) := by
        intro el
        rw [← hform el, ← hpform el]
        exact hcg el
      refine ⟨productSets, rfl, reacts, ratoms, rfl, hr1, x, cache, pds,
        pAtoms, hx, hmkp, hr2, hcg, hmain, ?_⟩
      intro hch el
      have h3 := hmain el
      by_cases hel : el = "H"
      · rw [if_pos hel, if_pos hel, hch] at h3
        omega
      · rw [if_neg hel, if_neg hel] at h3
        omega

/-- C4 witness for the amended theorem, at the concrete environment. -/
theorem run_reaction_balance_witness :
    ∃ productSets, envW.runReactants [0] = some productSets ∧
    ∃ (rts : List (Int × Cpd)) (rAtoms : Counter),
      _make_half_rxn envW 5 [] [0] ["Any"] = some (rts, rAtoms) ∧
      recW.reactants = rts.map (fun q => (q.1, q.2._id)) ∧
      ∃ (x : List Nat) (cache : Dict Cpd) (pds : List (Int × Cpd))
        (pAtoms : Counter),
        x ∈ productSets ∧
        _make_half_rxn envW 5 cache x ["Any"] = some (pds, pAtoms) ∧
        recW.products = pds.map (fun q => (q.1, q.2._id)) ∧
        (∀ el, cget rAtoms el = cget pAtoms el) ∧
        (∀ el, weightedAtoms rts el
             - (if el = "H" then halfCharge envW [0] ["Any"] else 0)
           = weightedAtoms pds el
             - (if el = "H" then halfCharge envW x ["Any"] else 0)) ∧
        (halfCharge envW [0] ["Any"] = halfCharge envW x ["Any"] →
          ∀ el, weightedAtoms rts el = weightedAtoms pds el) :=
  run_reaction_balance envW "rule1" ["Any"] ["Any"] [0] [] [] 5 "Rx" recW
    (by rw [envW_run]; simp [dlookup]) rfl

/-- C4 counterexample to the claim as stated: on the concrete environment
a reaction record IS emitted although the raw stoichiometry-weighted
atom counts of its (unique) reactant and product halves differ at `"H"`
(`1` versus `0`; the sides carry formal charges `+1` and `0`, and only the
charge-corrected vectors agree) — the candidate is not rejected. -/
theorem run_reaction_raw_imbalance :
    dlookup (_run_reaction envW "rule1" ["Any"] ["Any"] [0] [] [] 5).2 "Rx"
      = some recW ∧
    recW.reactants = [(1, crW._id)] ∧
    recW.products = [(1, cpW._id)] ∧
    weightedAtoms [(1, crW)] "H" = 1 ∧
    weightedAtoms [(1, cpW)] "H" = 0 ∧
    weightedAtoms [(1, crW)] "H" ≠ weightedAtoms [(1, cpW)] "H" := by
  refine ⟨?_, rfl, rfl, ?_, ?_, ?_⟩
  · rw [envW_run]
    simp [dlookup]
  · decide
  · decide
  · decide

end MinePickaxe
